import Mathlib

/-!
Shallow embedding of `src/test-files/sample.py` (`LegacyDataProcessor`):
the payload data model, the transform routines (`_normalize_data`,
`_aggregate_data`, `_filter_data`, `_transform_data`), the cache-key
derivation (`_generate_cache_key`) and the TTL / size-bounded cache logic
of `process_data` and `clear_cache`.

Modelling conventions:
* Python floats are modelled as rationals (`ℚ`); textual float `repr` is
  abstracted by an explicit stand-in function.
* `str.lower`, `str.isdigit`, `str.strip` and `float(str)` are modelled on
  the ASCII range (non-ASCII case folding, Unicode digits, `inf`/`nan`
  and underscore separators in float literals are outside the model).
* External collaborators (the `hashlib.md5` digest, `json.loads`,
  `datetime.fromisoformat`) are passed in as function parameters: the
  repository treats them as opaque library calls.
* Python dicts are insertion-ordered association lists with distinct keys;
  `d[k] = v` keeps the position of an existing key and appends otherwise.
* Time (`datetime.now()`) is threaded through as an integer parameter.
-/

namespace Legacy

/-- Dynamically-typed Python value flowing through `LegacyDataProcessor`.
Nested mappings keep insertion order, as Python dicts do. -/
inductive Payload where
  | null
  | bool (b : Bool)
  | int (n : Int)
  | float (q : ℚ)
  | str (s : String)
  | list (items : List Payload)
  | dict (entries : List (String × Payload))
  deriving Repr

mutual

/-- Structural equality test on payloads. -/
def Payload.beq : Payload → Payload → Bool
  | .null, .null => true
  | .bool a, .bool b => decide (a = b)
  | .int a, .int b => decide (a = b)
  | .float a, .float b => decide (a = b)
  | .str a, .str b => decide (a = b)
  | .list xs, .list ys => beqList xs ys
  | .dict xs, .dict ys => beqEntries xs ys
  | _, _ => false

/-- Elementwise equality test on payload lists. -/
def beqList : List Payload → List Payload → Bool
  | [], [] => true
  | x :: xs, y :: ys => Payload.beq x y && beqList xs ys
  | _, _ => false

/-- Entrywise equality test on payload association lists. -/
def beqEntries : List (String × Payload) → List (String × Payload) → Bool
  | [], [] => true
  | (k, v) :: xs, (l, w) :: ys => decide (k = l) && Payload.beq v w && beqEntries xs ys
  | _, _ => false

end

mutual

/-- Structural size of a payload (containers count their elements). -/
def Payload.psize : Payload → Nat
  | .list l => plsize l + 1
  | .dict kvs => pesize kvs + 1
  | _ => 1

/-- Total size of a payload list. -/
def plsize : List Payload → Nat
  | [] => 0
  | x :: xs => Payload.psize x + plsize xs

/-- Total size of a payload association list. -/
def pesize : List (String × Payload) → Nat
  | [] => 0
  | (_, v) :: xs => Payload.psize v + pesize xs

end

theorem psize_pos (p : Payload) : 0 < p.psize := by
  cases p <;> simp [Payload.psize]

theorem plsize_of_mem {x : Payload} {l : List Payload} (hx : x ∈ l) :
    Payload.psize x ≤ plsize l := by
  induction l with
  | nil => cases hx
  | cons y ys ih =>
    rcases List.mem_cons.mp hx with h | h
    · subst h; simp [plsize]
    · have := ih h; simp [plsize]; omega

theorem pesize_of_mem {e : String × Payload} {kvs : List (String × Payload)}
    (he : e ∈ kvs) : Payload.psize e.2 ≤ pesize kvs := by
  induction kvs with
  | nil => cases he
  | cons f fs ih =>
    obtain ⟨k, v⟩ := f
    rcases List.mem_cons.mp he with h | h
    · subst h; simp [pesize]
    · have := ih h; simp [pesize]; omega

/-- Size-based structural induction for `Payload`, threading the inductive
hypothesis into nested list and mapping elements. -/
theorem Payload.indOn (motive : Payload → Prop)
    (h0 : motive .null) (h1 : ∀ b, motive (.bool b)) (h2 : ∀ n, motive (.int n))
    (h3 : ∀ q, motive (.float q)) (h4 : ∀ s, motive (.str s))
    (h5 : ∀ l, (∀ x ∈ l, motive x) → motive (.list l))
    (h6 : ∀ kvs, (∀ e ∈ kvs, motive e.2) → motive (.dict kvs)) :
    ∀ p, motive p := by
  have main : ∀ n p, Payload.psize p ≤ n → motive p := by
    intro n
    induction n with
    | zero =>
      intro p hp
      exact absurd hp (by have := psize_pos p; omega)
    | succ n ih =>
      intro p _hp
      cases p with
      | null => exact h0
      | bool b => exact h1 b
      | int n => exact h2 n
      | float q => exact h3 q
      | str s => exact h4 s
      | list l =>
        refine h5 l (fun x hx => ih x ?_)
        have := plsize_of_mem hx
        simp [Payload.psize] at _hp
        omega
      | dict kvs =>
        refine h6 kvs (fun e he => ih e.2 ?_)
        have := pesize_of_mem he
        simp [Payload.psize] at _hp
        omega
  exact fun p => main (Payload.psize p) p le_rfl

theorem Payload.beq_iff : ∀ a b : Payload, Payload.beq a b = true ↔ a = b := by
  intro a
  induction a using Payload.indOn with
  | h0 => intro b; cases b <;> simp [Payload.beq]
  | h1 x => intro b; cases b <;> simp [Payload.beq]
  | h2 x => intro b; cases b <;> simp [Payload.beq]
  | h3 x => intro b; cases b <;> simp [Payload.beq]
  | h4 x => intro b; cases b <;> simp [Payload.beq]
  | h5 l ih =>
    intro b
    cases b <;> simp [Payload.beq]
    case list ys =>
      induction l generalizing ys with
      | nil => cases ys <;> simp [beqList]
      | cons x xs ihl =>
        cases ys with
        | nil => simp [beqList]
        | cons y ys =>
          have hx := ih x (by simp)
          have hxs := ihl (fun z hz => ih z (by simp [hz])) ys
          simp [beqList, hx y, hxs]
  | h6 kvs ih =>
    intro b
    cases b <;> simp [Payload.beq]
    case dict ys =>
      induction kvs generalizing ys with
      | nil => cases ys <;> simp [beqEntries]
      | cons e xs ihl =>
        cases ys with
        | nil => obtain ⟨k, v⟩ := e; simp [beqEntries]
        | cons f ys =>
          obtain ⟨k, v⟩ := e
          obtain ⟨l, w⟩ := f
          have hv := ih (k, v) (by simp)
          have hxs := ihl (fun z hz => ih z (by simp [hz])) ys
          simp [beqEntries, hv w, hxs, and_assoc]

instance : DecidableEq Payload :=
  fun a b => decidable_of_iff (Payload.beq a b = true) (Payload.beq_iff a b)

/-- The ASCII upper/lower case table behind `str.lower`. -/
def lowerPairs : List (Char × Char) :=
  [('A', 'a'), ('B', 'b'), ('C', 'c'), ('D', 'd'), ('E', 'e'), ('F', 'f'),
   ('G', 'g'), ('H', 'h'), ('I', 'i'), ('J', 'j'), ('K', 'k'), ('L', 'l'),
   ('M', 'm'), ('N', 'n'), ('O', 'o'), ('P', 'p'), ('Q', 'q'), ('R', 'r'),
   ('S', 's'), ('T', 't'), ('U', 'u'), ('V', 'v'), ('W', 'w'), ('X', 'x'),
   ('Y', 'y'), ('Z', 'z')]

/-- Model of Python `str.lower` on one character (ASCII range). -/
def pyLowerChar (c : Char) : Char :=
  ((lowerPairs.find? (fun p => p.1 = c)).map (fun p => p.2)).getD c

/-- Model of Python `str.lower` (ASCII range). -/
def pyLower (s : String) : String := String.mk (s.data.map pyLowerChar)

/-- The whitespace characters stripped by Python `str.strip()` (ASCII part). -/
def isPyWs (c : Char) : Bool :=
  c = ' ' || c = '\t' || c = '\n' || c = '\r' || c = '\x0b' || c = '\x0c'

/-- Strip `isPyWs` characters from both ends of a character list. -/
def stripList (l : List Char) : List Char :=
  ((l.dropWhile isPyWs).reverse.dropWhile isPyWs).reverse

/-- Model of Python `str.strip()`. -/
def pyStrip (s : String) : String := String.mk (stripList s.data)

/-- Model of Python `str.isdigit` (ASCII digits). -/
def pyIsDigit (s : String) : Bool := !s.data.isEmpty && s.data.all Char.isDigit

/-- Numeric value of a list of ASCII digits. -/
def digitsToNat (l : List Char) : Nat :=
  l.foldl (fun a c => 10 * a + (c.toNat - 48)) 0

/-- Model of Python `int(s)` on an all-digit string. -/
def pyIntOfDigits (s : String) : Int := Int.ofNat (digitsToNat s.data)

/-- Exponent suffix of a float literal: empty, or `e`/`E`, an optional
sign, and at least one digit, consuming the whole remainder. -/
def parseExpPart : List Char → Option Int
  | [] => some 0
  | c :: rest =>
    if c = 'e' || c = 'E' then
      match rest with
      | '+' :: ds =>
        if !ds.isEmpty && ds.all Char.isDigit then some (Int.ofNat (digitsToNat ds)) else none
      | '-' :: ds =>
        if !ds.isEmpty && ds.all Char.isDigit then some (-(Int.ofNat (digitsToNat ds))) else none
      | ds =>
        if !ds.isEmpty && ds.all Char.isDigit then some (Int.ofNat (digitsToNat ds)) else none
    else none

/-- Mantissa of a float literal: digits, with an optional fractional part;
at least one digit overall. Returns its value and the unconsumed rest. -/
def parseMantissa (l : List Char) : Option (ℚ × List Char) :=
  let ip := l.takeWhile Char.isDigit
  let r1 := l.dropWhile Char.isDigit
  match r1 with
  | '.' :: r2 =>
    let fp := r2.takeWhile Char.isDigit
    let r3 := r2.dropWhile Char.isDigit
    if ip.isEmpty && fp.isEmpty then none
    else some ((digitsToNat ip : ℚ) + (digitsToNat fp : ℚ) / ((10 : ℚ) ^ fp.length), r3)
  | _ => if ip.isEmpty then none else some ((digitsToNat ip : ℚ), r1)

/-- Model of Python `float(s)`: strip whitespace, optional sign, decimal
mantissa, optional exponent. `none` models a raised `ValueError`. -/
def pyFloatParse (s : String) : Option ℚ :=
  let t := stripList s.data
  let signBody : Bool × List Char :=
    match t with
    | '+' :: r => (false, r)
    | '-' :: r => (true, r)
    | r => (false, r)
  match parseMantissa signBody.2 with
  | none => none
  | some (m, rest) =>
    match parseExpPart rest with
    | none => none
    | some e => some ((if signBody.1 then -m else m) * (10 : ℚ) ^ e)

/-- The string-value coercion inside `_normalize_data` (sample.py lines
78-89): boolean tokens, then `isdigit`/`int`, then `float`, then the
trimmed lower-cased string. -/
def coerceStr (v : String) : Payload :=
  if pyLower v = "true" || pyLower v = "yes" || pyLower v = "1" then .bool true
  else if pyLower v = "false" || pyLower v = "no" || pyLower v = "0" then .bool false
  else if pyIsDigit v then .int (pyIntOfDigits v)
  else
    match pyFloatParse v with
    | some q => .float q
    | none => .str (pyLower (pyStrip v))

/-- Python dict assignment `d[k] = v` on an insertion-ordered association
list: overwrite in place if the key exists, append otherwise. -/
def dictSet (d : List (String × Payload)) (k : String) (v : Payload) :
    List (String × Payload) :=
  if d.any (fun e => e.1 = k) then d.map (fun e => if e.1 = k then (k, v) else e)
  else d ++ [(k, v)]

mutual

/-- `LegacyDataProcessor._normalize_data` (sample.py lines 72-98). -/
def _normalize_data : Payload → Payload
  | .dict kvs => .dict (normEntries [] kvs)
  | .list items => .list (normList items)
  | p => p

/-- Value-side of the `_normalize_data` dict loop: strings are coerced,
lists and dicts recurse, everything else passes through. -/
def normVal : Payload → Payload
  | .str s => coerceStr s
  | .list items => .list (normList items)
  | .dict kvs => .dict (normEntries [] kvs)
  | p => p

/-- The `for key, value in data.items()` loop of `_normalize_data`,
building `normalized` by Python dict assignment on the lower-cased key. -/
def normEntries (acc : List (String × Payload)) :
    List (String × Payload) → List (String × Payload)
  | [] => acc
  | (k, v) :: rest => normEntries (dictSet acc (pyLower k) (normVal v)) rest

/-- The list branch of `_normalize_data`: normalize every element. -/
def normList : List Payload → List Payload
  | [] => []
  | x :: xs => _normalize_data x :: normList xs

end

/-! ### Transform routine (`_transform_data` and helpers) -/

/-- Fuelled scanner behind `sub1`; the fuel (initially the list length)
dominates the number of scan steps, so the `0` case is never reached. -/
def sub1Fuel : Nat → List Char → List Char
  | 0, l => l
  | _ + 1, [] => []
  | _ + 1, [c] => [c]
  | fuel + 1, c :: d :: rest =>
    if d.isUpper && !(rest.takeWhile Char.isLower).isEmpty then
      c :: '_' :: d ::
        (rest.takeWhile Char.isLower ++ sub1Fuel fuel (rest.dropWhile Char.isLower))
    else
      c :: sub1Fuel fuel (d :: rest)

/-- First substitution of `_transform_key`:
`re.sub('(.)([A-Z][a-z]+)', r'\1_\2', key)` — left-to-right,
non-overlapping, greedy lower-case run, resuming after each match. -/
def sub1 (l : List Char) : List Char := sub1Fuel l.length l

/-- Second substitution of `_transform_key`:
`re.sub('([a-z0-9])([A-Z])', r'\1_\2', s1)`. -/
def sub2 : List Char → List Char
  | [] => []
  | [c] => [c]
  | c :: d :: rest =>
    if (c.isLower || c.isDigit) && d.isUpper then c :: '_' :: d :: sub2 rest
    else c :: sub2 (d :: rest)

/-- `LegacyDataProcessor._transform_key` (sample.py lines 204-209):
camelCase to snake_case, then lower-case. -/
def _transform_key (key : String) : String :=
  String.mk ((sub2 (sub1 key.data)).map pyLowerChar)

/-- Consume exactly `n` ASCII digits. -/
def matchNDigits : Nat → List Char → Option (List Char)
  | 0, l => some l
  | _ + 1, [] => none
  | n + 1, c :: l => if c.isDigit then matchNDigits n l else none

/-- Consume one literal character. -/
def matchLit (ch : Char) : List Char → Option (List Char)
  | [] => none
  | c :: l => if c = ch then some l else none

/-- `re.match` of `\d{4}-\d{2}-\d{2}` (prefix match). -/
def datePat1 (l : List Char) : Bool :=
  (matchNDigits 4 l >>= matchLit '-' >>= matchNDigits 2 >>= matchLit '-' >>=
    matchNDigits 2).isSome

/-- `re.match` of `\d{2}/\d{2}/\d{4}` (prefix match). -/
def datePat2 (l : List Char) : Bool :=
  (matchNDigits 2 l >>= matchLit '/' >>= matchNDigits 2 >>= matchLit '/' >>=
    matchNDigits 4).isSome

/-- `re.match` of `\d{4}-\d{2}-\d{2}T\d{2}:\d{2}:\d{2}` (prefix match). -/
def datePat3 (l : List Char) : Bool :=
  (matchNDigits 4 l >>= matchLit '-' >>= matchNDigits 2 >>= matchLit '-' >>=
    matchNDigits 2 >>= matchLit 'T' >>= matchNDigits 2 >>= matchLit ':' >>=
    matchNDigits 2 >>= matchLit ':' >>= matchNDigits 2).isSome

/-- `LegacyDataProcessor._is_date_string` (sample.py lines 230-238). -/
def _is_date_string (s : String) : Bool :=
  datePat1 s.data || datePat2 s.data || datePat3 s.data

/-- Model of `urlparse(url).netloc` for the `http://`/`https://` strings
`_transform_value` feeds it: the text between `"//"` and the next
`/`, `?` or `#` (sample.py lines 240-246). -/
def _extract_domain (url : String) : String :=
  match (url.data.dropWhile (fun c => c != ':')).drop 1 with
  | '/' :: '/' :: rest =>
    String.mk (rest.takeWhile (fun c => c != '/' && c != '?' && c != '#'))
  | _ => ""

/-- Python `s.startswith(pre)`. -/
def pyStartsWith (pre s : String) : Bool := List.isPrefixOf pre.data s.data

mutual

/-- `LegacyDataProcessor._transform_data` (sample.py lines 189-202);
`isoRe` models `datetime.fromisoformat(v).isoformat()`, `none` being a
raised `ValueError`. -/
def _transform_data (isoRe : String → Option String) : Payload → Payload
  | .dict kvs => .dict (transEntries isoRe [] kvs)
  | .list items => .list (transList isoRe items)
  | p => p

/-- `LegacyDataProcessor._transform_value` (sample.py lines 211-228). -/
def _transform_value (isoRe : String → Option String) : Payload → Payload
  | .str v =>
    if _is_date_string v then
      match isoRe v with
      | some t => .str t
      | none => .str v
    else if pyStartsWith "http://" v || pyStartsWith "https://" v then
      .dict [("url", .str v), ("domain", .str (_extract_domain v))]
    else .str v
  | .dict kvs => .dict (transEntries isoRe [] kvs)
  | .list items => .list (transList isoRe items)
  | p => p

/-- The `for key, value in data.items()` loop of `_transform_data`. -/
def transEntries (isoRe : String → Option String) (acc : List (String × Payload)) :
    List (String × Payload) → List (String × Payload)
  | [] => acc
  | (k, v) :: rest =>
    transEntries isoRe (dictSet acc (_transform_key k) (_transform_value isoRe v)) rest

/-- The list branch of `_transform_data`. -/
def transList (isoRe : String → Option String) : List Payload → List Payload
  | [] => []
  | x :: xs => _transform_data isoRe x :: transList isoRe xs

end

/-! ### Aggregate routine (`_aggregate_data`) -/

/-- `type(x).__name__` for payloads. -/
def pyTypeName : Payload → String
  | .null => "NoneType"
  | .bool _ => "bool"
  | .int _ => "int"
  | .float _ => "float"
  | .str _ => "str"
  | .list _ => "list"
  | .dict _ => "dict"

/-- `isinstance(x, (int, float))`: true for Python booleans too, since
`bool` is a subclass of `int`. -/
def isNumInst : Payload → Bool
  | .bool _ => true
  | .int _ => true
  | .float _ => true
  | _ => false

/-- Numeric value of a payload satisfying `isNumInst`. -/
def numValQ : Payload → ℚ
  | .bool b => if b then 1 else 0
  | .int n => (n : ℚ)
  | .float q => q
  | _ => 0

/-- Integer value of a non-float numeric payload. -/
def numValI : Payload → Int
  | .bool b => if b then 1 else 0
  | .int n => n
  | _ => 0

/-- Whether the payload is a Python float. -/
def isFloatP : Payload → Bool
  | .float _ => true
  | _ => false

/-- Python `min(x :: xs)` over numbers: the first element attaining the
minimal value. -/
def pyMinNum (x : Payload) (xs : List Payload) : Payload :=
  xs.foldl (fun b y => if numValQ y < numValQ b then y else b) x

/-- Python `max(x :: xs)` over numbers: the first element attaining the
maximal value. -/
def pyMaxNum (x : Payload) (xs : List Payload) : Payload :=
  xs.foldl (fun b y => if numValQ b < numValQ y then y else b) x

/-- Python `sum` over numbers: an `int` unless some element is a float. -/
def pySumNum (xs : List Payload) : Payload :=
  if xs.any isFloatP then .float ((xs.map numValQ).sum)
  else .int ((xs.map numValI).sum)

/-- `d.get(k, 0)` on the int-valued type histogram. -/
def dictGetInt (d : List (String × Payload)) (k : String) : Int :=
  match d.find? (fun e => e.1 = k) with
  | some (_, .int n) => n
  | _ => 0

/-- The type-count loop of `_aggregate_data`:
`result['types'][t] = result['types'].get(t, 0) + 1`. -/
def typesHist (items : List Payload) : List (String × Payload) :=
  items.foldl (fun acc it =>
    dictSet acc (pyTypeName it) (.int (dictGetInt acc (pyTypeName it) + 1))) []

/-- `LegacyDataProcessor._aggregate_data` (sample.py lines 100-136). -/
def _aggregate_data : Payload → Payload
  | .list items =>
    let numericStats : Payload :=
      match items.filter isNumInst with
      | [] => .dict []
      | x :: xs =>
        .dict [("min", pyMinNum x xs), ("max", pyMaxNum x xs),
               ("avg", .float (((x :: xs).map numValQ).sum / (((x :: xs).length : ℚ)))),
               ("sum", pySumNum (x :: xs))]
    let strs := items.filterMap (fun it =>
      match it with
      | .str s => some s
      | _ => none)
    let stringStats : Payload :=
      if strs.isEmpty then .dict []
      else .dict [("total_length", .int ((strs.map (fun s => (s.length : Int))).sum)),
                  ("avg_length", .float ((strs.map (fun s => (s.length : ℚ))).sum / ((strs.length : ℚ)))),
                  ("unique_count", .int (strs.dedup.length))]
    .dict [("count", .int items.length), ("types", .dict (typesHist items)),
           ("numeric_stats", numericStats), ("string_stats", stringStats)]
  | _ => .dict [("error", .str "Data must be a list for aggregation")]

/-! ### Filter routine (`_filter_data`) -/

/-- `float(x)` on an arbitrary payload (the `score` check): numbers and
numeric strings convert, everything else raises (`none`). -/
def pyFloatOf : Payload → Option ℚ
  | .bool b => some (if b then 1 else 0)
  | .int n => some (n : ℚ)
  | .float q => some q
  | .str s => pyFloatParse s
  | _ => none

/-- The `status` rule of `_should_include_dict` (fall-through = `none`). -/
def statusDecision (v : Payload) : Option Bool :=
  if v = .str "active" || v = .str "enabled" || v = .str "valid" then some true
  else if v = .str "inactive" || v = .str "disabled" || v = .str "invalid" then some false
  else none

/-- The `score` rule of `_should_include_dict`. -/
def scoreDecision (v : Payload) : Option Bool :=
  match pyFloatOf v with
  | some q => some (decide ((1 : ℚ) / 2 ≤ q))
  | none => none

/-- The `created_at` rule of `_should_include_dict`; `fromiso` models
`datetime.fromisoformat` as seconds since the epoch. -/
def createdDecision (fromiso : String → Option Int) (now : Int) (v : Payload) :
    Option Bool :=
  match v with
  | .str s =>
    match fromiso s with
    | some created => some (decide (now - created < 365 * 86400))
    | none => none
  | _ => none

/-- `LegacyDataProcessor._should_include_dict` (sample.py lines 159-187). -/
def _should_include_dict (fromiso : String → Option Int) (now : Int)
    (item : List (String × Payload)) : Bool :=
  match (item.find? (fun e => e.1 = "status")).bind (fun e => statusDecision e.2) with
  | some b => b
  | none =>
    match (item.find? (fun e => e.1 = "score")).bind (fun e => scoreDecision e.2) with
    | some b => b
    | none =>
      match (item.find? (fun e => e.1 = "created_at")).bind
          (fun e => createdDecision fromiso now e.2) with
      | some b => b
      | none => true

/-- Per-element keep test of `_filter_data` (booleans fall into the
`isinstance(item, (int, float))` branch). -/
def filterKeep (fromiso : String → Option Int) (now : Int) : Payload → Bool
  | .dict kvs => _should_include_dict fromiso now kvs
  | .str s => decide (0 < s.length) && !(!s.data.isEmpty && s.data.all isPyWs)
  | .bool b => b
  | .int n => decide (0 < n)
  | .float q => decide (0 < q)
  | _ => true

/-- `LegacyDataProcessor._filter_data` (sample.py lines 138-157). -/
def _filter_data (fromiso : String → Option Int) (now : Int) : Payload → Payload
  | .list items => .list (items.filter (filterKeep fromiso now))
  | p => p

/-- `LegacyDataProcessor._default_processing`. -/
def _default_processing (data : Payload) : Payload := data

/-! ### Cache key derivation (`_generate_cache_key`) -/

/-- Stand-in for Python's textual float `repr` inside `json.dumps`. -/
def floatRepr (q : ℚ) : String := toString q.num ++ "/" ++ toString q.den

/-- JSON string quoting (escaping `"` and backslash; the full
`ensure_ascii` escape table is abstracted). -/
def jsonQuote (s : String) : String :=
  "\"" ++ String.mk (s.data.foldr (fun c acc =>
    if c = '"' || c = '\\' then '\\' :: c :: acc else c :: acc) []) ++ "\""

/-- Rendered-entry ordering by key, as `sort_keys=True` sorts. -/
def keyLeS (a b : String × String) : Prop := a.1 ≤ b.1

instance : DecidableRel keyLeS := fun a b => inferInstanceAs (Decidable (a.1 ≤ b.1))

/-- Render already-serialized dict entries with Python's separators. -/
def renderEntries (l : List (String × String)) : String :=
  String.intercalate ", " (l.map (fun e => jsonQuote e.1 ++ ": " ++ e.2))

mutual

/-- `json.dumps(data, sort_keys=True)` (sample.py line 255): mapping keys
sorted at every level, default `", "`/`": "` separators. -/
def dumps : Payload → String
  | .null => "null"
  | .bool true => "true"
  | .bool false => "false"
  | .int n => toString n
  | .float q => floatRepr q
  | .str s => jsonQuote s
  | .list items => "[" ++ dumpsList items ++ "]"
  | .dict kvs => "\x7b" ++ renderEntries (List.insertionSort keyLeS (dumpsEntries kvs)) ++ "\x7d"

/-- Comma-joined serialization of list elements. -/
def dumpsList : List Payload → String
  | [] => ""
  | [x] => dumps x
  | x :: y :: rest => dumps x ++ ", " ++ dumpsList (y :: rest)

/-- Serialize each dict value, keeping the key alongside. -/
def dumpsEntries : List (String × Payload) → List (String × String)
  | [] => []
  | (k, v) :: rest => (k, dumps v) :: dumpsEntries rest

end

/-- `LegacyDataProcessor._generate_cache_key` (sample.py lines 252-257);
`md5hex` abstracts `hashlib.md5(...).hexdigest()`. -/
def _generate_cache_key (md5hex : String → String) (data : Payload) (ptype : String) :
    String :=
  md5hex (ptype ++ ":" ++ dumps data)

/-! ### Cache store and dispatcher (`process_data`, `clear_cache`) -/

/-- One cache slot: `{'data': ..., 'timestamp': ...}`. -/
structure CacheEntry where
  data : Payload
  timestamp : Int
  deriving Repr, DecidableEq

/-- The insertion-ordered mapping behind `self.cache`. -/
abbrev Cache := List (String × CacheEntry)

/-- External collaborators of `LegacyDataProcessor`: the md5 digest, the
JSON parser, and the two `datetime.fromisoformat` uses. -/
structure Collab where
  md5hex : String → String
  jsonLoads : String → Option Payload
  isoRe : String → Option String
  fromiso : String → Option Int

/-- `self.cache[k]` guarded by `k in self.cache`. -/
def cacheFind (cache : Cache) (k : String) : Option CacheEntry :=
  (cache.find? (fun e => e.1 = k)).map (fun e => e.2)

/-- `del self.cache[k]`. -/
def cacheDel (cache : Cache) (k : String) : Cache :=
  cache.eraseP (fun e => e.1 = k)

/-- Python truthiness of a payload (`if not data`). -/
def isTruthy : Payload → Bool
  | .null => false
  | .bool b => b
  | .int n => decide (n ≠ 0)
  | .float q => decide (q ≠ 0)
  | .str s => !s.data.isEmpty
  | .list items => !items.isEmpty
  | .dict kvs => !kvs.isEmpty

/-- The cache read of `process_data` (sample.py lines 31-39): a fresh
entry is a hit, an expired one is deleted and reported as a miss. -/
def cacheLookup (ttl : Int) (cache : Cache) (k : String) (now : Int) :
    Option Payload × Cache :=
  match cacheFind cache k with
  | some e =>
    if now - e.timestamp < ttl then (some e.data, cache) else (none, cacheDel cache k)
  | none => (none, cache)

/-- `min(self.cache.keys(), key=lambda k: self.cache[k]['timestamp'])`:
the first key attaining the minimal timestamp (Python `min` keeps the
first). Python raises `ValueError` on an empty cache; the `""` default
is unreachable while the cache is nonempty. -/
def oldestKey : Cache → String
  | [] => ""
  | e :: rest => (rest.foldl (fun b x => if x.2.timestamp < b.2.timestamp then x else b) e).1

/-- The cache write of `process_data` (sample.py lines 54-68): plain
insert while below capacity, otherwise evict the oldest entry first. -/
def cacheStore (maxSize : Nat) (cache : Cache) (k : String) (v : Payload) (now : Int) :
    Cache :=
  if cache.length < maxSize then cache ++ [(k, ⟨v, now⟩)]
  else cacheDel cache (oldestKey cache) ++ [(k, ⟨v, now⟩)]

/-- The `processing_type` dispatch of `process_data` (lines 41-52). -/
def dispatchOp (C : Collab) (now : Int) (ptype : String) (data : Payload) : Payload :=
  if ptype = "normalize" then _normalize_data data
  else if ptype = "aggregate" then _aggregate_data data
  else if ptype = "filter" then _filter_data C.fromiso now data
  else if ptype = "transform" then _transform_data C.isoRe data
  else _default_processing data

/-- `LegacyDataProcessor.process_data` (sample.py lines 15-70): the
returned value and the post-call cache. `now` models `datetime.now()`
during the call. -/
def process_data (C : Collab) (maxSize : Nat) (ttl : Int) (cache : Cache)
    (now : Int) (data0 : Payload) (ptype : String) : Option Payload × Cache :=
  if !isTruthy data0 then (none, cache)
  else
    match (match data0 with | .str s => C.jsonLoads s | d => some d) with
    | none => (none, cache)
    | some data =>
      match cacheLookup ttl cache (_generate_cache_key C.md5hex data ptype) now with
      | (some hit, cache1) => (some hit, cache1)
      | (none, cache1) =>
        (some (dispatchOp C now ptype data),
          cacheStore maxSize cache1 (_generate_cache_key C.md5hex data ptype)
            (dispatchOp C now ptype data) now)

/-- `LegacyDataProcessor.clear_cache` (sample.py lines 259-262). -/
def clear_cache (_cache : Cache) : Cache := []

/-- `LegacyDataProcessor.get_cache_stats` (sample.py lines 264-271). -/
def get_cache_stats (maxSize : Nat) (ttl : Int) (cache : Cache) :
    Nat × Nat × Int × List String :=
  (cache.length, maxSize, ttl, cache.map (fun e => e.1))

/-- A public operation on a `LegacyDataProcessor` instance. -/
inductive Op where
  | proc (now : Int) (data : Payload) (ptype : String)
  | clear

/-- Run a sequence of public operations, threading the cache. -/
def runOps (C : Collab) (maxSize : Nat) (ttl : Int) : List Op → Cache → Cache
  | [], cache => cache
  | .proc now d t :: rest, cache =>
    runOps C maxSize ttl rest (process_data C maxSize ttl cache now d t).2
  | .clear :: rest, cache => runOps C maxSize ttl rest (clear_cache cache)

/-! ### Spec-side notions used to state the claims -/

/-- Payloads that are structurally equal and differ only in the insertion
order of mapping keys, at any nesting level: congruence plus adjacent
swaps of distinct-key entries (these generate every reordering of a
duplicate-free Python dict). -/
inductive KeyPerm : Payload → Payload → Prop where
  | refl (p) : KeyPerm p p
  | trans {p q r} : KeyPerm p q → KeyPerm q r → KeyPerm p r
  | listCons {x y xs ys} : KeyPerm x y → KeyPerm (.list xs) (.list ys) →
      KeyPerm (.list (x :: xs)) (.list (y :: ys))
  | dictCons (k : String) {v w xs ys} : KeyPerm v w → KeyPerm (.dict xs) (.dict ys) →
      KeyPerm (.dict ((k, v) :: xs)) (.dict ((k, w) :: ys))
  | dictSwap (k1 k2 : String) (v1 v2 : Payload) (l : List (String × Payload)) :
      k1 ≠ k2 →
      KeyPerm (.dict ((k1, v1) :: (k2, v2) :: l)) (.dict ((k2, v2) :: (k1, v1) :: l))

/-- Payload-entry ordering by key, for the canonical shape. -/
def keyLeP (a b : String × Payload) : Prop := a.1 ≤ b.1

instance : DecidableRel keyLeP := fun a b => inferInstanceAs (Decidable (a.1 ≤ b.1))

mutual

/-- Recursively sort every mapping level by key: the canonical shape that
`sort_keys=True` serialization exposes. -/
def canon : Payload → Payload
  | .list items => .list (canonList items)
  | .dict kvs => .dict (List.insertionSort keyLeP (canonEntries kvs))
  | p => p

/-- `canon` on list elements. -/
def canonList : List Payload → List Payload
  | [] => []
  | x :: xs => canon x :: canonList xs

/-- `canon` on dict values (before the keys are sorted). -/
def canonEntries : List (String × Payload) → List (String × Payload)
  | [] => []
  | (k, v) :: rest => (k, canon v) :: canonEntries rest

end

mutual

/-- Order-preserving serializer (no key sorting); `dumps` factors through
`canon` into it. -/
def rawDumps : Payload → String
  | .null => "null"
  | .bool true => "true"
  | .bool false => "false"
  | .int n => toString n
  | .float q => floatRepr q
  | .str s => jsonQuote s
  | .list items => "[" ++ rawDumpsList items ++ "]"
  | .dict kvs => "\x7b" ++ renderEntries (rawDumpsEntries kvs) ++ "\x7d"

/-- `rawDumps` on list elements, comma-joined. -/
def rawDumpsList : List Payload → String
  | [] => ""
  | [x] => rawDumps x
  | x :: y :: rest => rawDumps x ++ ", " ++ rawDumpsList (y :: rest)

/-- `rawDumps` on dict entries. -/
def rawDumpsEntries : List (String × Payload) → List (String × String)
  | [] => []
  | (k, v) :: rest => (k, rawDumps v) :: rawDumpsEntries rest

end

/-- Spec-side numeric reading of a sequence element for claim C10:
booleans as 0/1, ints and floats as their value, all else skipped. -/
def numContrib : Payload → Option ℚ
  | .bool b => some (if b then 1 else 0)
  | .int n => some (n : ℚ)
  | .float q => some q
  | _ => none

/-- Spec-side minimum of a nonempty rational list (0 on empty). -/
def qListMin : List ℚ → ℚ
  | [] => 0
  | x :: xs => xs.foldl min x

/-- Spec-side maximum of a nonempty rational list (0 on empty). -/
def qListMax : List ℚ → ℚ
  | [] => 0
  | x :: xs => xs.foldl max x

/-- Whether a payload is a Python boolean. -/
def isBoolP : Payload → Bool
  | .bool _ => true
  | _ => false

/-- Whether a payload is a true Python int (not a bool). -/
def isIntP : Payload → Bool
  | .int _ => true
  | _ => false

/-- Whether a payload is a Python list. -/
def isListP : Payload → Bool
  | .list _ => true
  | _ => false

/-- Association lookup in a payload mapping. -/
def dictFind (d : List (String × Payload)) (k : String) : Option Payload :=
  (d.find? (fun e => e.1 = k)).map (fun e => e.2)

/-- Mapping lookup on a payload value (`none` on non-mappings). -/
def pdictFind : Payload → String → Option Payload
  | .dict d, k => dictFind d k
  | _, _ => none

/-! ## Theorems -/

/-- **C7**: `aggregate` applied to any non-sequence payload returns the
error-shaped mapping `{error: "Data must be a list for aggregation"}` as
an ordinary result value (the function is total, nothing is thrown). -/
theorem C7_aggregate_non_list_error (p : Payload) (h : isListP p = false) :
    _aggregate_data p = .dict [("error", .str "Data must be a list for aggregation")] := by
  cases p <;> simp_all [isListP, _aggregate_data]

/-- Witness for C7 at the integer payload `5`. -/
theorem C7_witness :
    isListP (.int 5) = false ∧
    _aggregate_data (.int 5) =
      .dict [("error", .str "Data must be a list for aggregation")] :=
  ⟨by decide, C7_aggregate_non_list_error (.int 5) (by decide)⟩

/-- **C9**: `process_data` returns `None` for every falsy payload (`False`,
`0`, `0.0`, `""`, `[]`, `{}`, `None`) immediately, leaving the cache
untouched: no parsing, key derivation, cache access or transformation
happens. -/
theorem C9_falsy_returns_none (C : Collab) (maxSize : Nat) (ttl : Int) (cache : Cache)
    (now : Int) (ptype : String) (p : Payload) (h : isTruthy p = false) :
    process_data C maxSize ttl cache now p ptype = (none, cache) := by
  simp [process_data, h]

/-- Witness for C9: all five falsy shapes named by the claim, applied at
the integer `0` with a concrete collaborator bundle. -/
theorem C9_witness :
    (isTruthy (.int 0) = false ∧ isTruthy (.str "") = false ∧
     isTruthy (.bool false) = false ∧ isTruthy (.list []) = false ∧
     isTruthy (.dict []) = false ∧ isTruthy .null = false) ∧
    process_data ⟨fun s => s, fun _ => none, fun _ => none, fun _ => none⟩ 1000 3600 [] 0
      (.int 0) "normalize" = (none, []) :=
  ⟨by decide, C9_falsy_returns_none _ 1000 3600 [] 0 "normalize" (.int 0) (by decide)⟩

/-- **C6**: when the string input fails JSON parsing, `process_data`
returns `None` instead of propagating the error, and likewise for null
input; both failure paths yield a well-typed value and leave the cache
unchanged. -/
theorem C6_bad_input_returns_none (C : Collab) (maxSize : Nat) (ttl : Int) (cache : Cache)
    (now : Int) (ptype : String) (s : String) (h : C.jsonLoads s = none) :
    process_data C maxSize ttl cache now (.str s) ptype = (none, cache) ∧
    process_data C maxSize ttl cache now .null ptype = (none, cache) := by
  constructor
  · by_cases he : s.data.isEmpty
    · simp [process_data, isTruthy, he]
    · simp [process_data, isTruthy, he, h]
  · simp [process_data, isTruthy]

/-- Witness for C6 at the unparseable string `"not json"` with a parser
collaborator that rejects it. -/
theorem C6_witness :
    (Collab.jsonLoads ⟨fun s => s, fun _ => none, fun _ => none, fun _ => none⟩ "not json"
      = none) ∧
    process_data ⟨fun s => s, fun _ => none, fun _ => none, fun _ => none⟩ 1000 3600 [] 0
      (.str "not json") "default" = (none, []) ∧
    process_data ⟨fun s => s, fun _ => none, fun _ => none, fun _ => none⟩ 1000 3600 [] 0
      .null "default" = (none, []) :=
  ⟨rfl, (C6_bad_input_returns_none _ 1000 3600 [] 0 "default" "not json" rfl).1,
    (C6_bad_input_returns_none _ 1000 3600 [] 0 "default" "not json" rfl).2⟩

/-! ### Cache-store lemmas (shared by C3, C4 and C5) -/

/-- Deleting a key from a duplicate-free cache makes its lookup miss. -/
theorem cacheFind_cacheDel_self (cache : Cache) (k : String)
    (hnodup : (cache.map Prod.fst).Nodup) : cacheFind (cacheDel cache k) k = none := by
  induction cache with
  | nil => rfl
  | cons c rest ih =>
    simp only [List.map_cons, List.nodup_cons] at hnodup
    by_cases hc : c.1 = k
    · have hdel : cacheDel (c :: rest) k = rest := by
        simp [cacheDel, hc]
      rw [hdel]
      subst hc
      simp only [cacheFind]
      have hfind : rest.find? (fun e => e.1 = c.1) = none := by
        rw [List.find?_eq_none]
        intro x hx
        simp only [decide_eq_true_eq]
        intro hxk
        exact hnodup.1 (hxk ▸ List.mem_map_of_mem Prod.fst hx)
      rw [hfind]
      rfl
    · have hdel : cacheDel (c :: rest) k = c :: cacheDel rest k := by
        simp [cacheDel, hc]
      rw [hdel]
      simp only [cacheFind]
      rw [List.find?_cons_of_neg _ (by simpa using hc)]
      exact ih hnodup.2

/-- In a duplicate-free association list the key determines the entry. -/
theorem entry_eq_of_key_eq {α : Type} {l : List (String × α)}
    (h : (l.map Prod.fst).Nodup) {a b : String × α}
    (ha : a ∈ l) (hb : b ∈ l) (hk : a.1 = b.1) : a = b := by
  induction l with
  | nil => cases ha
  | cons c rest ih =>
    simp only [List.map_cons, List.nodup_cons] at h
    rcases List.mem_cons.mp ha with rfl | ha' <;> rcases List.mem_cons.mp hb with rfl | hb'
    · rfl
    · exact absurd (hk ▸ List.mem_map_of_mem Prod.fst hb') h.1
    · exact absurd (hk ▸ List.mem_map_of_mem Prod.fst ha') h.1
    · exact ih h.2 ha' hb'

/-- The running minimum of the eviction scan is one of the candidates. -/
theorem foldlMin_mem (x : String × CacheEntry) (xs : Cache) :
    xs.foldl (fun b y => if y.2.timestamp < b.2.timestamp then y else b) x = x ∨
    xs.foldl (fun b y => if y.2.timestamp < b.2.timestamp then y else b) x ∈ xs := by
  induction xs generalizing x with
  | nil => exact Or.inl rfl
  | cons y ys ih =>
    simp only [List.foldl_cons]
    rcases ih (if y.2.timestamp < x.2.timestamp then y else x) with h | h
    · rw [h]
      split
      · exact Or.inr (List.mem_cons_self _ _)
      · exact Or.inl rfl
    · exact Or.inr (List.mem_cons_of_mem _ h)

/-- The running minimum of the eviction scan has the least timestamp. -/
theorem foldlMin_le (x : String × CacheEntry) (xs : Cache) :
    ∀ e, (e = x ∨ e ∈ xs) →
      (xs.foldl (fun b y => if y.2.timestamp < b.2.timestamp then y else b) x).2.timestamp ≤
        e.2.timestamp := by
  induction xs generalizing x with
  | nil =>
    intro e he
    rcases he with rfl | h
    · exact le_rfl
    · cases h
  | cons y ys ih =>
    intro e he
    simp only [List.foldl_cons]
    have hstep : (if y.2.timestamp < x.2.timestamp then y else x).2.timestamp ≤ x.2.timestamp ∧
        (if y.2.timestamp < x.2.timestamp then y else x).2.timestamp ≤ y.2.timestamp := by
      split <;> constructor <;> omega
    rcases he with rfl | h
    · exact le_trans (ih _ _ (Or.inl rfl)) hstep.1
    · rcases List.mem_cons.mp h with rfl | h'
      · exact le_trans (ih _ _ (Or.inl rfl)) hstep.2
      · exact ih _ _ (Or.inr h')

/-- The oldest-key scan names a member entry of minimal timestamp. -/
theorem oldestKey_spec (cache : Cache) (hne : cache ≠ []) :
    ∃ m ∈ cache, m.1 = oldestKey cache ∧
      ∀ e ∈ cache, m.2.timestamp ≤ e.2.timestamp := by
  obtain ⟨c, rest, rfl⟩ := List.exists_cons_of_ne_nil hne
  refine ⟨rest.foldl (fun b y => if y.2.timestamp < b.2.timestamp then y else b) c,
    ?_, ?_, ?_⟩
  · rcases foldlMin_mem c rest with h | h
    · rw [h]; exact List.mem_cons_self _ _
    · exact List.mem_cons_of_mem _ h
  · simp [oldestKey]
  · intro e he
    exact foldlMin_le c rest e (List.mem_cons.mp he)

/-- The TTL-expiry deletion inside the lookup never grows the cache. -/
theorem cacheLookup_length_le (ttl : Int) (cache : Cache) (k : String) (now : Int) :
    (cacheLookup ttl cache k now).2.length ≤ cache.length := by
  unfold cacheLookup
  rcases h : cacheFind cache k with _ | e
  · simp
  · simp only
    split
    · simp
    · simpa [cacheDel] using List.length_eraseP_le cache

/-- The cache write keeps the size within `maxSize` once it is positive. -/
theorem cacheStore_length_le (maxSize : Nat) (cache : Cache) (k : String) (v : Payload)
    (now : Int) (hpos : 0 < maxSize) (hle : cache.length ≤ maxSize) :
    (cacheStore maxSize cache k v now).length ≤ maxSize := by
  unfold cacheStore
  split
  case isTrue h => simp; omega
  case isFalse h =>
    have hne : cache ≠ [] := by
      intro hc
      subst hc
      simp at h
      omega
    obtain ⟨m, hm, hkey, -⟩ := oldestKey_spec cache hne
    have hp : (fun e => decide (e.1 = oldestKey cache)) m = true := by simpa using hkey
    have hlen := List.length_eraseP_of_mem (p := fun e => e.1 = oldestKey cache) hm hp
    have hposlen : 0 < cache.length := List.length_pos_of_mem hm
    simp only [cacheDel, List.length_append, List.length_cons, List.length_nil]
    omega

/-- The lookup-then-store tail of `process_data` preserves the bound. -/
theorem process_tail_bound (C : Collab) (maxSize : Nat) (ttl : Int) (cache : Cache)
    (now : Int) (t : String) (data : Payload) (hpos : 0 < maxSize)
    (hle : cache.length ≤ maxSize) :
    (match cacheLookup ttl cache (_generate_cache_key C.md5hex data t) now with
      | (some hit, cache1) => ((some hit : Option Payload), cache1)
      | (none, cache1) =>
        (some (dispatchOp C now t data),
          cacheStore maxSize cache1 (_generate_cache_key C.md5hex data t)
            (dispatchOp C now t data) now)).2.length ≤ maxSize := by
  rcases hl : cacheLookup ttl cache (_generate_cache_key C.md5hex data t) now
    with ⟨res, cache1⟩
  have h1 : cache1.length ≤ cache.length := by
    have h2 := cacheLookup_length_le ttl cache (_generate_cache_key C.md5hex data t) now
    rw [hl] at h2
    exact h2
  cases res
  · simpa using cacheStore_length_le maxSize cache1 _ _ now hpos (le_trans h1 hle)
  · simpa using le_trans h1 hle

/-- One `process_data` call preserves the cache-size bound. -/
theorem process_data_cache_bound (C : Collab) (maxSize : Nat) (ttl : Int) (cache : Cache)
    (now : Int) (d : Payload) (t : String) (hpos : 0 < maxSize)
    (hle : cache.length ≤ maxSize) :
    (process_data C maxSize ttl cache now d t).2.length ≤ maxSize := by
  unfold process_data
  split
  · simpa
  · split
    · simpa
    · next data _ => exact process_tail_bound C maxSize ttl cache now t data hpos hle

/-- Any operation sequence preserves the cache-size bound. -/
theorem runOps_cache_bound (C : Collab) (maxSize : Nat) (ttl : Int) (hpos : 0 < maxSize) :
    ∀ (ops : List Op) (cache : Cache), cache.length ≤ maxSize →
      (runOps C maxSize ttl ops cache).length ≤ maxSize := by
  intro ops
  induction ops with
  | nil => intro cache h; simpa [runOps]
  | cons op rest ih =>
    intro cache h
    cases op with
    | proc now d t =>
      exact ih _ (process_data_cache_bound C maxSize ttl cache now d t hpos h)
    | clear => exact ih _ (by simp [clear_cache])

/-- **C3**: starting from the empty cache, after any finite sequence of
`process_data` and `clear_cache` calls with a positive `max_cache_size`,
the number of cache entries is at most `max_cache_size`. -/
theorem C3_cache_size_bound (C : Collab) (maxSize : Nat) (ttl : Int) (ops : List Op)
    (hpos : 0 < maxSize) : (runOps C maxSize ttl ops []).length ≤ maxSize :=
  runOps_cache_bound C maxSize ttl hpos ops [] (by simp)

/-- Witness for C3: three `process` calls and a clear against capacity 2. -/
theorem C3_witness :
    0 < 2 ∧
    (runOps ⟨fun s => s, fun _ => none, fun _ => none, fun _ => none⟩ 2 3600
      [.proc 0 (.int 1) "default", .proc 1 (.int 2) "default", .clear,
       .proc 2 (.int 3) "default", .proc 3 (.int 4) "default", .proc 4 (.int 5) "default"]
      []).length ≤ 2 :=
  ⟨by decide,
   C3_cache_size_bound ⟨fun s => s, fun _ => none, fun _ => none, fun _ => none⟩ 2 3600
     [.proc 0 (.int 1) "default", .proc 1 (.int 2) "default", .clear,
      .proc 2 (.int 3) "default", .proc 3 (.int 4) "default", .proc 4 (.int 5) "default"]
     (by decide)⟩

/-- **C4**: a cached entry is returned only while its age is strictly
below the TTL; at or past the TTL the lookup is a miss and the expired
entry is removed from the cache by the lookup itself. -/
theorem C4_ttl_lookup (ttl : Int) (cache : Cache) (k : String) (now : Int)
    (e : CacheEntry) (hfind : cacheFind cache k = some e)
    (hnodup : (cache.map Prod.fst).Nodup) :
    (now - e.timestamp < ttl → cacheLookup ttl cache k now = (some e.data, cache)) ∧
    (ttl ≤ now - e.timestamp →
      cacheLookup ttl cache k now = (none, cacheDel cache k) ∧
      cacheFind (cacheDel cache k) k = none ∧
      (cacheDel cache k).length + 1 = cache.length) := by
  constructor
  · intro hfresh
    simp [cacheLookup, hfind, hfresh]
  · intro hexp
    have hnotlt : ¬(now - e.timestamp < ttl) := by omega
    refine ⟨by simp [cacheLookup, hfind, hnotlt], cacheFind_cacheDel_self cache k hnodup, ?_⟩
    obtain ⟨me, hfind', -⟩ := Option.map_eq_some'.mp hfind
    have hmem := List.mem_of_find?_eq_some hfind'
    have hp := List.find?_some hfind'
    have hlen := List.length_eraseP_of_mem (p := fun e => e.1 = k) hmem hp
    have hposlen : 0 < cache.length := List.length_pos_of_mem hmem
    simp only [cacheDel]
    omega

/-- Witness for C4: a one-entry cache probed before and at expiry. -/
theorem C4_witness :
    cacheFind [("k", ⟨Payload.int 7, 100⟩)] "k" = some ⟨Payload.int 7, 100⟩ ∧
    (([("k", (⟨Payload.int 7, 100⟩ : CacheEntry))].map Prod.fst).Nodup) ∧
    ((100 + 5 - (100 : Int) < 10 →
      cacheLookup 10 [("k", ⟨Payload.int 7, 100⟩)] "k" (100 + 5) =
        (some (Payload.int 7), [("k", ⟨Payload.int 7, 100⟩)])) ∧
     ((10 : Int) ≤ 100 + 5 - 100 →
      cacheLookup 10 [("k", ⟨Payload.int 7, 100⟩)] "k" (100 + 5) =
        (none, cacheDel [("k", ⟨Payload.int 7, 100⟩)] "k") ∧
      cacheFind (cacheDel [("k", ⟨Payload.int 7, 100⟩)] "k") "k" = none ∧
      (cacheDel [("k", ⟨Payload.int 7, 100⟩)] "k").length + 1 =
        [("k", (⟨Payload.int 7, 100⟩ : CacheEntry))].length)) :=
  ⟨by decide, by decide,
   C4_ttl_lookup 10 [("k", ⟨Payload.int 7, 100⟩)] "k" (100 + 5) ⟨Payload.int 7, 100⟩
     (by decide) (by decide)⟩

/-- **C5**: when the cache already holds `max_cache_size` entries and a
new key is stored, exactly one entry is removed before insertion, namely
a member entry whose timestamp is minimal among all entries (so an entry
strictly newer than some surviving entry is never the one evicted). -/
theorem C5_eviction_oldest (maxSize : Nat) (cache : Cache) (k : String) (v : Payload)
    (now : Int) (hfull : cache.length = maxSize) (hpos : 0 < maxSize)
    (hnodup : (cache.map Prod.fst).Nodup) (hnew : cacheFind cache k = none) :
    ∃ m ∈ cache, m.1 = oldestKey cache ∧
      (∀ e ∈ cache, m.2.timestamp ≤ e.2.timestamp) ∧
      (∀ e ∈ cache, e.1 = oldestKey cache → e = m) ∧
      cacheStore maxSize cache k v now =
        cacheDel cache (oldestKey cache) ++ [(k, ⟨v, now⟩)] ∧
      (cacheDel cache (oldestKey cache)).length + 1 = cache.length := by
  have hne : cache ≠ [] := by
    intro hc
    subst hc
    simp at hfull
    omega
  obtain ⟨m, hm, hkey, hmin⟩ := oldestKey_spec cache hne
  refine ⟨m, hm, hkey, hmin, ?_, ?_, ?_⟩
  · intro e he hek
    exact entry_eq_of_key_eq hnodup he hm (hek.trans hkey.symm)
  · unfold cacheStore
    have : ¬(cache.length < maxSize) := by omega
    simp [this]
  · have hp : (fun e => decide (e.1 = oldestKey cache)) m = true := by simpa using hkey
    have hlen := List.length_eraseP_of_mem (p := fun e => e.1 = oldestKey cache) hm hp
    have hposlen : 0 < cache.length := List.length_pos_of_mem hm
    simp only [cacheDel]
    omega

/-- Witness for C5: a full two-entry cache (capacity 2) receiving a new
key; the older entry `"old"` is the eviction candidate. -/
theorem C5_witness :
    ([("old", (⟨Payload.int 1, 5⟩ : CacheEntry)), ("new", ⟨Payload.int 2, 9⟩)].length = 2) ∧
    0 < 2 ∧
    (([("old", (⟨Payload.int 1, 5⟩ : CacheEntry)), ("new", ⟨Payload.int 2, 9⟩)].map
      Prod.fst).Nodup) ∧
    cacheFind [("old", ⟨Payload.int 1, 5⟩), ("new", ⟨Payload.int 2, 9⟩)] "k3" = none ∧
    (∃ m ∈ [("old", (⟨Payload.int 1, 5⟩ : CacheEntry)), ("new", ⟨Payload.int 2, 9⟩)],
      m.1 = oldestKey [("old", ⟨Payload.int 1, 5⟩), ("new", ⟨Payload.int 2, 9⟩)] ∧
      (∀ e ∈ [("old", (⟨Payload.int 1, 5⟩ : CacheEntry)), ("new", ⟨Payload.int 2, 9⟩)],
        m.2.timestamp ≤ e.2.timestamp) ∧
      (∀ e ∈ [("old", (⟨Payload.int 1, 5⟩ : CacheEntry)), ("new", ⟨Payload.int 2, 9⟩)],
        e.1 = oldestKey [("old", ⟨Payload.int 1, 5⟩), ("new", ⟨Payload.int 2, 9⟩)] → e = m) ∧
      cacheStore 2 [("old", ⟨Payload.int 1, 5⟩), ("new", ⟨Payload.int 2, 9⟩)] "k3"
          (.int 3) 11 =
        cacheDel [("old", ⟨Payload.int 1, 5⟩), ("new", ⟨Payload.int 2, 9⟩)]
          (oldestKey [("old", ⟨Payload.int 1, 5⟩), ("new", ⟨Payload.int 2, 9⟩)]) ++
          [("k3", ⟨.int 3, 11⟩)] ∧
      (cacheDel [("old", ⟨Payload.int 1, 5⟩), ("new", ⟨Payload.int 2, 9⟩)]
        (oldestKey [("old", ⟨Payload.int 1, 5⟩), ("new", ⟨Payload.int 2, 9⟩)])).length + 1 =
        [("old", (⟨Payload.int 1, 5⟩ : CacheEntry)), ("new", ⟨Payload.int 2, 9⟩)].length) :=
  ⟨by decide, by decide, by decide, by decide,
   C5_eviction_oldest 2 [("old", ⟨Payload.int 1, 5⟩), ("new", ⟨Payload.int 2, 9⟩)] "k3"
     (.int 3) 11 (by decide) (by decide) (by decide) (by decide)⟩

/-- **C8**: the transform scenario:
`process({"userId": "http://example.com/x"}, "transform")` returns
`{"user_id": {"url": "http://example.com/x", "domain": "example.com"}}` —
the key is rewritten camelCase → snake_case and the http URL value is
replaced by the url/domain mapping. -/
theorem C8_transform_scenario (C : Collab) (maxSize : Nat) (ttl : Int) (now : Int)
    (_hpos : 0 < maxSize) :
    (process_data C maxSize ttl [] now (.dict [("userId", .str "http://example.com/x")])
      "transform").1 =
    some (.dict [("user_id",
      .dict [("url", .str "http://example.com/x"), ("domain", .str "example.com")])]) := by
  rfl

/-- Witness for C8 with a concrete collaborator bundle and capacity 1000. -/
theorem C8_witness :
    0 < 1000 ∧
    (process_data ⟨fun s => s, fun _ => none, fun _ => none, fun _ => none⟩ 1000 3600 [] 0
      (.dict [("userId", .str "http://example.com/x")]) "transform").1 =
    some (.dict [("user_id",
      .dict [("url", .str "http://example.com/x"), ("domain", .str "example.com")])]) :=
  ⟨by decide,
   C8_transform_scenario ⟨fun s => s, fun _ => none, fun _ => none, fun _ => none⟩ 1000 3600 0
     (by decide)⟩

/-! ### Key-derivation lemmas (C2) -/

/-- Inserting two entries with distinct keys into a sorted entry list is
order-independent. -/
theorem orderedInsert_comm_of_ne (a b : String × Payload) (l : List (String × Payload))
    (h : a.1 ≠ b.1) :
    List.orderedInsert keyLeP a (List.orderedInsert keyLeP b l) =
    List.orderedInsert keyLeP b (List.orderedInsert keyLeP a l) := by
  induction l with
  | nil =>
    by_cases hab : keyLeP a b
    · have hba : ¬keyLeP b a := fun hba => h (le_antisymm hab hba)
      simp [List.orderedInsert, hab, hba]
    · have hba : keyLeP b a := le_of_not_le hab
      simp [List.orderedInsert, hab, hba]
  | cons c rest ih =>
    by_cases hbc : keyLeP b c <;> by_cases hac : keyLeP a c
    · by_cases hab : keyLeP a b
      · have hba : ¬keyLeP b a := fun hba => h (le_antisymm hab hba)
        simp [List.orderedInsert, hbc, hac, hab, hba]
      · have hba : keyLeP b a := le_of_not_le hab
        simp [List.orderedInsert, hbc, hac, hab, hba]
    · have hab : ¬keyLeP a b := fun hab => hac (le_trans hab hbc)
      simp [List.orderedInsert, hbc, hac, hab]
    · have hba : ¬keyLeP b a := fun hba => hbc (le_trans hba hac)
      simp [List.orderedInsert, hbc, hac, hba]
    · simp [List.orderedInsert, hbc, hac, ih]

/-- Reordering mapping keys does not change the canonical shape. -/
theorem canon_keyPerm {p q : Payload} (h : KeyPerm p q) : canon p = canon q := by
  induction h with
  | refl p => rfl
  | trans h1 h2 ih1 ih2 => exact ih1.trans ih2
  | listCons hxy hxs ih1 ih2 =>
    simp only [canon, canonList] at *
    injection ih2 with ih2'
    rw [ih1, ih2']
  | dictCons k hvw hxs ih1 ih2 =>
    simp only [canon, canonEntries, List.insertionSort] at *
    injection ih2 with ih2'
    rw [ih1, ih2']
  | dictSwap k1 k2 v1 v2 l hne =>
    simp only [canon, canonEntries, List.insertionSort]
    rw [orderedInsert_comm_of_ne (k1, canon v1) (k2, canon v2) _ (by simpa using hne)]

theorem canonEntries_eq_map (l : List (String × Payload)) :
    canonEntries l = l.map (fun e => (e.1, canon e.2)) := by
  induction l with
  | nil => rfl
  | cons e rest ih =>
    obtain ⟨k, v⟩ := e
    simp [canonEntries, ih]

theorem rawDumpsEntries_eq_map (l : List (String × Payload)) :
    rawDumpsEntries l = l.map (fun e => (e.1, rawDumps e.2)) := by
  induction l with
  | nil => rfl
  | cons e rest ih =>
    obtain ⟨k, v⟩ := e
    simp [rawDumpsEntries, ih]

theorem dumpsEntries_eq_map (l : List (String × Payload)) :
    dumpsEntries l = l.map (fun e => (e.1, dumps e.2)) := by
  induction l with
  | nil => rfl
  | cons e rest ih =>
    obtain ⟨k, v⟩ := e
    simp [dumpsEntries, ih]

/-- Serializing dict values commutes with the key-ordered insert. -/
theorem orderedInsert_map_snd (f : Payload → String) (a : String × Payload)
    (l : List (String × Payload)) :
    List.orderedInsert keyLeS (a.1, f a.2) (l.map (fun e => (e.1, f e.2))) =
    (List.orderedInsert keyLeP a l).map (fun e => (e.1, f e.2)) := by
  induction l with
  | nil => rfl
  | cons c rest ih =>
    by_cases h : keyLeP a c
    · have h' : keyLeS (a.1, f a.2) (c.1, f c.2) := h
      simp [List.orderedInsert, h, h']
    · have h' : ¬keyLeS (a.1, f a.2) (c.1, f c.2) := h
      simp [List.orderedInsert, h, h', ih]

/-- Serializing dict values commutes with the key sort. -/
theorem insertionSort_map_snd (f : Payload → String) (l : List (String × Payload)) :
    List.insertionSort keyLeS (l.map (fun e => (e.1, f e.2))) =
    (List.insertionSort keyLeP l).map (fun e => (e.1, f e.2)) := by
  induction l with
  | nil => rfl
  | cons c rest ih =>
    simp only [List.map_cons, List.insertionSort, ih]
    exact orderedInsert_map_snd f c (List.insertionSort keyLeP rest)

/-- `json.dumps(..., sort_keys=True)` serializes exactly the canonical
shape: `dumps` factors through `canon`. -/
theorem dumps_eq_rawDumps_canon : ∀ p, dumps p = rawDumps (canon p) := by
  intro p
  induction p using Payload.indOn with
  | h0 => rfl
  | h1 b => cases b <;> rfl
  | h2 n => rfl
  | h3 q => rfl
  | h4 s => rfl
  | h5 l ih =>
    simp only [dumps, canon, rawDumps]
    have hlist : dumpsList l = rawDumpsList (canonList l) := by
      induction l with
      | nil => rfl
      | cons x xs ihl =>
        have hx := ih x (by simp)
        cases xs with
        | nil => simp [dumpsList, canonList, rawDumpsList, hx]
        | cons y ys =>
          have hrest := ihl (fun z hz => ih z (by simp [hz]))
          simp only [dumpsList, canonList, rawDumpsList] at *
          rw [hx, hrest]
    rw [hlist]
  | h6 kvs ih =>
    simp only [dumps, canon, rawDumps]
    have step : List.insertionSort keyLeS (dumpsEntries kvs) =
        rawDumpsEntries (List.insertionSort keyLeP (canonEntries kvs)) := by
      rw [dumpsEntries_eq_map, canonEntries_eq_map,
        rawDumpsEntries_eq_map, ← insertionSort_map_snd]
      have hmap : kvs.map (fun e => (e.1, dumps e.2)) =
          (kvs.map (fun e => (e.1, canon e.2))).map (fun e => (e.1, rawDumps e.2)) := by
        rw [List.map_map]
        exact List.map_congr_left (fun e he => by simp [ih e he])
      rw [hmap]
    rw [step]

/-- **C2**: the derived cache key does not depend on the insertion order
of mapping keys at any nesting level: structurally-equal payloads that
differ only by such reordering produce the same key string, for any
digest function; the deriver itself is a pure function of its arguments,
so repeated calls return the same string. -/
theorem C2_cache_key_order_independent (md5hex : String → String) (ptype : String)
    (p q : Payload) (h : KeyPerm p q) :
    _generate_cache_key md5hex p ptype = _generate_cache_key md5hex q ptype := by
  unfold _generate_cache_key
  rw [dumps_eq_rawDumps_canon, canon_keyPerm h, ← dumps_eq_rawDumps_canon]

/-- Witness for C2: a two-key mapping with its keys swapped. -/
theorem C2_witness :
    KeyPerm (.dict [("b", .int 1), ("a", .int 2)]) (.dict [("a", .int 2), ("b", .int 1)]) ∧
    _generate_cache_key (fun s => s) (.dict [("b", .int 1), ("a", .int 2)]) "normalize" =
      _generate_cache_key (fun s => s) (.dict [("a", .int 2), ("b", .int 1)]) "normalize" :=
  ⟨KeyPerm.dictSwap "b" "a" (.int 1) (.int 2) [] (by decide),
   C2_cache_key_order_independent (fun s => s) "normalize" _ _
     (KeyPerm.dictSwap "b" "a" (.int 1) (.int 2) [] (by decide))⟩

/-! ### Normalization lemmas (C1) -/

theorem stringData_mk (l : List Char) : (String.mk l).data = l := rfl

/-- No lower-case image appears among the upper-case sources. -/
theorem lowerPairs_closed :
    ∀ pr ∈ lowerPairs, lowerPairs.find? (fun p => p.1 = pr.2) = none := by decide

/-- Neither side of the case table is whitespace. -/
theorem lowerPairs_not_ws :
    ∀ pr ∈ lowerPairs, isPyWs pr.1 = false ∧ isPyWs pr.2 = false := by decide

theorem pyLowerChar_idem (c : Char) : pyLowerChar (pyLowerChar c) = pyLowerChar c := by
  rcases h : lowerPairs.find? (fun p => p.1 = c) with _ | pr
  · have hc : pyLowerChar c = c := by simp [pyLowerChar, h]
    rw [hc, hc]
  · have hc : pyLowerChar c = pr.2 := by simp [pyLowerChar, h]
    have hnone := lowerPairs_closed pr (List.mem_of_find?_eq_some h)
    rw [hc]
    simp [pyLowerChar, hnone]

theorem isPyWs_pyLowerChar (c : Char) : isPyWs (pyLowerChar c) = isPyWs c := by
  rcases h : lowerPairs.find? (fun p => p.1 = c) with _ | pr
  · simp [pyLowerChar, h]
  · have hc : pyLowerChar c = pr.2 := by simp [pyLowerChar, h]
    have hc1 : pr.1 = c := by simpa using List.find?_some h
    have hw := lowerPairs_not_ws pr (List.mem_of_find?_eq_some h)
    rw [hc, hw.2, ← hc1, hw.1]

theorem pyLower_idem (s : String) : pyLower (pyLower s) = pyLower s := by
  simp only [pyLower, stringData_mk, List.map_map]
  exact congrArg String.mk (List.map_congr_left fun c _ => by
    simp [Function.comp, pyLowerChar_idem c])

theorem dropWhile_idem (p : Char → Bool) (l : List Char) :
    (l.dropWhile p).dropWhile p = l.dropWhile p := by
  induction l with
  | nil => rfl
  | cons c rest ih =>
    by_cases h : p c = true
    · rw [List.dropWhile_cons, if_pos h, ih]
    · rw [List.dropWhile_cons, if_neg h, List.dropWhile_cons, if_neg h]

theorem dropWhile_head_false {p : Char → Bool} {l : List Char} {x : Char} {xs : List Char}
    (h : l.dropWhile p = x :: xs) : p x = false := by
  induction l with
  | nil => simp at h
  | cons c rest ih =>
    by_cases hc : p c = true
    · rw [List.dropWhile_cons, if_pos hc] at h
      exact ih h
    · rw [List.dropWhile_cons, if_neg hc] at h
      cases h
      simpa using hc

theorem dropWhile_getLast? {p : Char → Bool} {l : List Char}
    (h : l.dropWhile p ≠ []) : (l.dropWhile p).getLast? = l.getLast? := by
  induction l with
  | nil => simp at h
  | cons c rest ih =>
    by_cases hc : p c = true
    · rw [List.dropWhile_cons, if_pos hc] at h ⊢
      have hrest : rest ≠ [] := by
        intro he
        rw [he] at h
        simp at h
      obtain ⟨r, rs, rfl⟩ := List.exists_cons_of_ne_nil hrest
      rw [ih h, List.getLast?_cons_cons]
    · rw [List.dropWhile_cons, if_neg hc]

theorem stripList_idem (l : List Char) : stripList (stripList l) = stripList l := by
  unfold stripList
  set A := l.dropWhile isPyWs with hA
  set B := A.reverse.dropWhile isPyWs with hB
  have h1 : B.reverse.dropWhile isPyWs = B.reverse := by
    rcases hs : B.reverse with _ | ⟨x, xs⟩
    · simp
    · have hBne : B ≠ [] := by
        intro h0
        rw [h0] at hs
        simp at hs
      have hxlast : B.getLast? = some x := by
        have := List.head?_reverse B
        rw [hs] at this
        simpa using this.symm
      have h2 : B.getLast? = A.reverse.getLast? := by
        rw [hB]
        exact dropWhile_getLast? (by rw [← hB]; exact hBne)
      have h3 : A.reverse.getLast? = A.head? := by
        simp [List.getLast?_reverse]
      have hAhead : A.head? = some x := by
        rw [← h3, ← h2, hxlast]
      have hAne : A ≠ [] := by
        intro h0
        rw [h0] at hAhead
        simp at hAhead
      obtain ⟨a, as, ha⟩ := List.exists_cons_of_ne_nil hAne
      have hax : a = x := by
        rw [ha] at hAhead
        simpa using hAhead
      have hwa : isPyWs a = false := by
        apply dropWhile_head_false (l := l) (p := isPyWs)
        rw [← hA, ha]
      rw [List.dropWhile_cons, if_neg (by rw [← hax]; simp [hwa])]
  rw [h1, List.reverse_reverse]
  have h4 : B.dropWhile isPyWs = B := by
    rw [hB]
    exact dropWhile_idem _ _
  rw [h4]

theorem stripList_map_lower (l : List Char) :
    stripList (l.map pyLowerChar) = (stripList l).map pyLowerChar := by
  have hfun : (isPyWs ∘ pyLowerChar) = isPyWs := funext fun c => isPyWs_pyLowerChar c
  simp only [stripList, List.dropWhile_map, hfun]
  rw [← List.map_reverse, List.dropWhile_map, hfun, ← List.map_reverse]

theorem pyStrip_pyLower (s : String) : pyStrip (pyLower s) = pyLower (pyStrip s) := by
  simp only [pyStrip, pyLower, stringData_mk]
  rw [stripList_map_lower]

theorem pyStrip_idem (s : String) : pyStrip (pyStrip s) = pyStrip s := by
  simp only [pyStrip, stringData_mk]
  rw [stripList_idem]

/-- The fallback string produced by the coercion is lower/strip-fixed. -/
theorem canonStr_fixed (s : String) :
    pyLower (pyLower (pyStrip s)) = pyLower (pyStrip s) ∧
    pyStrip (pyLower (pyStrip s)) = pyLower (pyStrip s) :=
  ⟨pyLower_idem _, by rw [pyStrip_pyLower, pyStrip_idem]⟩

/-- The shapes the string coercion can produce: a boolean, an int, a
float, or the trimmed lower-cased fallback string. -/
theorem coerceStr_cases (s : String) :
    (∃ b, coerceStr s = .bool b) ∨ (∃ n, coerceStr s = .int n) ∨
    (∃ q, coerceStr s = .float q) ∨ coerceStr s = .str (pyLower (pyStrip s)) := by
  unfold coerceStr
  split
  · exact Or.inl ⟨true, rfl⟩
  split
  · exact Or.inl ⟨false, rfl⟩
  split
  · exact Or.inr (Or.inl ⟨_, rfl⟩)
  split
  · exact Or.inr (Or.inr (Or.inl ⟨_, rfl⟩))
  · exact Or.inr (Or.inr (Or.inr rfl))

/-- A string output of the coercion is exactly the trimmed lower-cased
form of the input. -/
theorem coerceStr_eq_str {s t : String} (h : coerceStr s = .str t) :
    t = pyLower (pyStrip s) := by
  unfold coerceStr at h
  split at h
  · exact absurd h (by simp)
  split at h
  · exact absurd h (by simp)
  split at h
  · exact absurd h (by simp)
  split at h
  · exact absurd h (by simp)
  · injection h with h'
    exact h'.symm

theorem normVal_str (s : String) : normVal (.str s) = coerceStr s := rfl

theorem normList_eq_map (l : List Payload) : normList l = l.map _normalize_data := by
  induction l with
  | nil => rfl
  | cons x xs ih => simp [normList, ih]

theorem norm_shape_list (items : List Payload) :
    _normalize_data (.list items) = .list (normList items) := rfl

theorem norm_shape_dict (kvs : List (String × Payload)) :
    _normalize_data (.dict kvs) = .dict (normEntries [] kvs) := rfl

/-- Keys after a dict assignment. -/
theorem dictSet_keys (d : List (String × Payload)) (k : String) (v : Payload) :
    (dictSet d k v).map Prod.fst =
      if d.any (fun e => e.1 = k) then d.map Prod.fst else d.map Prod.fst ++ [k] := by
  unfold dictSet
  split
  · rw [List.map_map]
    exact List.map_congr_left fun e _ => by
      by_cases he : e.1 = k <;> simp [he]
  · simp

/-- Values after a dict assignment come from the old values or the new one. -/
theorem dictSet_values (d : List (String × Payload)) (k : String) (v : Payload) :
    ∀ w ∈ (dictSet d k v).map Prod.snd, w ∈ d.map Prod.snd ∨ w = v := by
  unfold dictSet
  split
  · intro w hw
    rw [List.map_map] at hw
    obtain ⟨e, he, hew⟩ := List.mem_map.mp hw
    by_cases hek : e.1 = k
    · right
      simp only [Function.comp, hek, if_pos] at hew
      exact hew.symm
    · left
      simp only [Function.comp, hek, if_neg, not_false_iff] at hew
      exact hew ▸ List.mem_map_of_mem Prod.snd he
  · intro w hw
    simp only [List.map_append, List.map_cons, List.map_nil] at hw
    rcases List.mem_append.mp hw with h | h
    · exact Or.inl h
    · simp at h
      exact Or.inr h

/-- Dict assignment with a lower-case fresh-or-present key preserves
lower-cased, duplicate-free keys. -/
theorem dictSet_keys_props (d : List (String × Payload)) (k : String) (v : Payload)
    (hl : ∀ k' ∈ d.map Prod.fst, pyLower k' = k') (hnd : (d.map Prod.fst).Nodup)
    (hk : pyLower k = k) :
    (∀ k' ∈ (dictSet d k v).map Prod.fst, pyLower k' = k') ∧
    ((dictSet d k v).map Prod.fst).Nodup := by
  rw [dictSet_keys]
  split
  · exact ⟨hl, hnd⟩
  · next hany =>
    have hkn : k ∉ d.map Prod.fst := by
      intro hmem
      obtain ⟨e, he, hek⟩ := List.mem_map.mp hmem
      exact hany (List.any_eq_true.mpr ⟨e, he, by simp [hek]⟩)
    constructor
    · intro k' hk'
      rcases List.mem_append.mp hk' with h | h
      · exact hl k' h
      · simp at h
        rw [h, hk]
    · simp [List.nodup_append, hnd, hkn]

/-- The normalize loop yields lower-cased, duplicate-free keys. -/
theorem normEntries_keys (l : List (String × Payload)) :
    ∀ acc, (∀ k' ∈ acc.map Prod.fst, pyLower k' = k') → (acc.map Prod.fst).Nodup →
    (∀ k' ∈ (normEntries acc l).map Prod.fst, pyLower k' = k') ∧
    ((normEntries acc l).map Prod.fst).Nodup := by
  induction l with
  | nil => exact fun acc h1 h2 => ⟨h1, h2⟩
  | cons e rest ih =>
    intro acc h1 h2
    obtain ⟨k, v⟩ := e
    simp only [normEntries]
    have hp := dictSet_keys_props acc (pyLower k) (normVal v) h1 h2 (pyLower_idem k)
    exact ih _ hp.1 hp.2

/-- Every value produced by the normalize loop is `normVal` of an input
value (or came from the accumulator). -/
theorem normEntries_values (l : List (String × Payload)) :
    ∀ acc, ∀ w ∈ (normEntries acc l).map Prod.snd,
      w ∈ acc.map Prod.snd ∨ ∃ e ∈ l, w = normVal e.2 := by
  induction l with
  | nil => exact fun acc w hw => Or.inl hw
  | cons e rest ih =>
    intro acc w hw
    obtain ⟨k, v⟩ := e
    simp only [normEntries] at hw
    rcases ih _ w hw with h | ⟨e', he', hw'⟩
    · rcases dictSet_values acc (pyLower k) (normVal v) w h with h' | h'
      · exact Or.inl h'
      · exact Or.inr ⟨(k, v), by simp, h'⟩
    · exact Or.inr ⟨e', by simp [he'], hw'⟩

/-- On an entry list whose lower-cased keys are duplicate-free and absent
from the accumulator, the normalize loop is a plain map. -/
theorem normEntries_eq_map_of_fresh (l : List (String × Payload)) :
    ∀ acc, ((l.map fun e => pyLower e.1).Nodup) →
      (∀ e ∈ l, pyLower e.1 ∉ acc.map Prod.fst) →
      normEntries acc l = acc ++ l.map (fun e => (pyLower e.1, normVal e.2)) := by
  induction l with
  | nil => intro acc _ _; simp [normEntries]
  | cons e rest ih =>
    intro acc hnd hdisj
    obtain ⟨k, v⟩ := e
    simp only [normEntries]
    have hnotin : acc.any (fun e => e.1 = pyLower k) = false := by
      rw [List.any_eq_false]
      intro x hx
      simp only [decide_eq_true_eq]
      intro hxk
      exact hdisj (k, v) (by simp) (hxk ▸ List.mem_map_of_mem Prod.fst hx)
    have hset : dictSet acc (pyLower k) (normVal v) = acc ++ [(pyLower k, normVal v)] := by
      unfold dictSet
      rw [hnotin]
      simp
    rw [hset]
    simp only [List.map_cons, List.nodup_cons] at hnd
    rw [ih (acc ++ [(pyLower k, normVal v)]) hnd.2 ?_]
    · simp
    · intro e' he'
      simp only [List.map_append, List.map_cons, List.map_nil]
      rw [List.mem_append]
      push_neg
      refine ⟨hdisj e' (List.mem_cons_of_mem _ he'), ?_⟩
      simp only [List.mem_singleton]
      intro hcontra
      exact hnd.1 (hcontra ▸ List.mem_map_of_mem (fun e => pyLower e.1) he')

/-- Three applications of the value transformation agree with two, given
the same fact for the payload itself (used at container values). -/
theorem normVal_stab (v0 : Payload)
    (hIH : _normalize_data (_normalize_data (_normalize_data v0)) =
           _normalize_data (_normalize_data v0)) :
    normVal (normVal (normVal v0)) = normVal (normVal v0) := by
  cases v0 with
  | str s =>
    rcases coerceStr_cases s with ⟨b, hb⟩ | ⟨n, hn⟩ | ⟨q, hq⟩ | hs
    · rw [normVal_str, hb]; rfl
    · rw [normVal_str, hn]; rfl
    · rw [normVal_str, hq]; rfl
    · rw [normVal_str, hs, normVal_str]
      rcases coerceStr_cases (pyLower (pyStrip s)) with ⟨b, hb⟩ | ⟨n, hn⟩ | ⟨q, hq⟩ | hs2
      · rw [hb]; rfl
      · rw [hn]; rfl
      · rw [hq]; rfl
      · rw [(canonStr_fixed s).2, (canonStr_fixed s).1] at hs2
        rw [hs2, normVal_str, hs2]
  | list items =>
    have h1 : normVal (normVal (normVal (.list items))) =
        _normalize_data (_normalize_data (_normalize_data (.list items))) := rfl
    have h2 : normVal (normVal (.list items)) =
        _normalize_data (_normalize_data (.list items)) := rfl
    rw [h1, h2, hIH]
  | dict kvs =>
    have h1 : normVal (normVal (normVal (.dict kvs))) =
        _normalize_data (_normalize_data (_normalize_data (.dict kvs))) := rfl
    have h2 : normVal (normVal (.dict kvs)) =
        _normalize_data (_normalize_data (.dict kvs)) := rfl
    rw [h1, h2, hIH]
  | null => rfl
  | bool b => rfl
  | int n => rfl
  | float q => rfl

/-- **C1 (amended)**: `_normalize_data` stabilizes after two applications:
the third application changes nothing, for every payload. (Idempotence
after one application fails, see the counterexample.) -/
theorem C1_amended_normalize_stabilizes (p : Payload) :
    _normalize_data (_normalize_data (_normalize_data p)) =
    _normalize_data (_normalize_data p) := by
  induction p using Payload.indOn with
  | h0 => rfl
  | h1 b => rfl
  | h2 n => rfl
  | h3 q => rfl
  | h4 s => rfl
  | h5 l ih =>
    simp only [norm_shape_list, normList_eq_map, List.map_map]
    congr 1
    exact List.map_congr_left fun x hx => by simpa [Function.comp] using ih x hx
  | h6 kvs ih =>
    have hE1 := normEntries_keys kvs [] (by simp) (by simp)
    have hE1nd : ((normEntries [] kvs).map fun e => pyLower e.1).Nodup := by
      have heq : ((normEntries [] kvs).map fun e => pyLower e.1) =
          (normEntries [] kvs).map Prod.fst :=
        List.map_congr_left fun e he => hE1.1 e.1 (List.mem_map_of_mem Prod.fst he)
      rw [heq]
      exact hE1.2
    have hmap1 : normEntries [] (normEntries [] kvs) =
        (normEntries [] kvs).map (fun e => (e.1, normVal e.2)) := by
      rw [normEntries_eq_map_of_fresh (normEntries [] kvs) [] hE1nd (by simp)]
      simp only [List.nil_append]
      exact List.map_congr_left fun e he => by
        rw [hE1.1 e.1 (List.mem_map_of_mem Prod.fst he)]
    have hE2keys : ((normEntries [] kvs).map (fun e => (e.1, normVal e.2))).map Prod.fst =
        (normEntries [] kvs).map Prod.fst := by
      rw [List.map_map]
      exact List.map_congr_left fun e _ => rfl
    have hE2nd : (((normEntries [] kvs).map (fun e => (e.1, normVal e.2))).map
        fun e => pyLower e.1).Nodup := by
      have heq : (((normEntries [] kvs).map (fun e => (e.1, normVal e.2))).map
          fun e => pyLower e.1) =
          ((normEntries [] kvs).map (fun e => (e.1, normVal e.2))).map Prod.fst := by
        refine List.map_congr_left fun e he => ?_
        obtain ⟨e', he', rfl⟩ := List.mem_map.mp he
        exact hE1.1 e'.1 (List.mem_map_of_mem Prod.fst he')
      rw [heq, hE2keys]
      exact hE1.2
    have hmap2 : normEntries [] ((normEntries [] kvs).map (fun e => (e.1, normVal e.2))) =
        ((normEntries [] kvs).map (fun e => (e.1, normVal e.2))).map
          (fun e => (e.1, normVal e.2)) := by
      rw [normEntries_eq_map_of_fresh _ [] hE2nd (by simp)]
      simp only [List.nil_append]
      refine List.map_congr_left fun e he => ?_
      obtain ⟨e', he', rfl⟩ := List.mem_map.mp he
      rw [hE1.1 e'.1 (List.mem_map_of_mem Prod.fst he')]
    rw [norm_shape_dict, norm_shape_dict, hmap1, norm_shape_dict, hmap2]
    congr 1
    rw [List.map_map]
    refine List.map_congr_left fun e he => ?_
    obtain ⟨w, hwmem, hw⟩ : ∃ w ∈ kvs, e.2 = normVal w.2 := by
      have := normEntries_values kvs [] e.2 (List.mem_map_of_mem Prod.snd he)
      rcases this with h | ⟨w, hwm, hww⟩
      · simp at h
      · exact ⟨w, hwm, hww⟩
    have hstab := normVal_stab w.2 (ih w hwmem)
    simp only [Function.comp]
    rw [hw, hstab]

/-- **C1 (counterexample)**: `_normalize_data` is not idempotent: on
`{"a": " TRUE "}` the first pass falls back to the trimmed lower-cased
string `"true"`, which the second pass coerces to `True`. -/
theorem C1_counterexample :
    _normalize_data (_normalize_data (.dict [("a", .str " TRUE ")])) ≠
    _normalize_data (.dict [("a", .str " TRUE ")]) := by decide

/-! ### Aggregation lemmas (C10) -/

theorem dictFind_none_getInt {d : List (String × Payload)} {k : String}
    (h : dictFind d k = none) : dictGetInt d k = 0 := by
  unfold dictFind at h
  unfold dictGetInt
  rw [Option.map_eq_none'.mp h]

theorem dictFind_int_getInt {d : List (String × Payload)} {k : String} {n : Int}
    (h : dictFind d k = some (.int n)) : dictGetInt d k = n := by
  unfold dictFind at h
  unfold dictGetInt
  obtain ⟨e, he, hev⟩ := Option.map_eq_some'.mp h
  rw [he]
  obtain ⟨k0, v0⟩ := e
  simp only at hev
  rw [hev]

/-- Finding a replaced key in the overwrite branch of `dictSet`. -/
theorem find?_map_replace_self (d : List (String × Payload)) (k : String) (v : Payload)
    (hany : d.any (fun e => e.1 = k) = true) :
    (d.map (fun e => if e.1 = k then (k, v) else e)).find? (fun e => e.1 = k) =
      some (k, v) := by
  induction d with
  | nil => simp at hany
  | cons e rest ih =>
    by_cases he : e.1 = k
    · simp only [List.map_cons, if_pos he]
      exact List.find?_cons_of_pos _ (by simp)
    · have hrest : rest.any (fun e => e.1 = k) = true := by
        rcases List.any_eq_true.mp hany with ⟨x, hx, hxk⟩
        rcases List.mem_cons.mp hx with rfl | hx'
        · exact absurd (by simpa using hxk) he
        · exact List.any_eq_true.mpr ⟨x, hx', hxk⟩
      simp only [List.map_cons, if_neg he]
      rw [List.find?_cons_of_neg _ (by simpa using he)]
      exact ih hrest

/-- Finding an untouched key in the overwrite branch of `dictSet`. -/
theorem find?_map_replace_other (d : List (String × Payload)) (k : String) (v : Payload)
    (k' : String) (h : k' ≠ k) :
    (d.map (fun e => if e.1 = k then (k, v) else e)).find? (fun e => e.1 = k') =
      d.find? (fun e => e.1 = k') := by
  induction d with
  | nil => rfl
  | cons e rest ih =>
    by_cases he : e.1 = k
    · have hkk' : ¬((k, v).1 = k') := fun hc => h hc.symm
      have he2 : ¬(e.1 = k') := by
        rw [he]
        exact fun hc => h hc.symm
      simp only [List.map_cons, if_pos he]
      rw [List.find?_cons_of_neg _ (by simpa using hkk'),
          List.find?_cons_of_neg _ (by simpa using he2)]
      exact ih
    · simp only [List.map_cons, if_neg he]
      by_cases he' : e.1 = k'
      · rw [List.find?_cons_of_pos _ (by simpa using he'),
            List.find?_cons_of_pos _ (by simpa using he')]
      · rw [List.find?_cons_of_neg _ (by simpa using he'),
            List.find?_cons_of_neg _ (by simpa using he')]
        exact ih

theorem dictSet_find_self (d : List (String × Payload)) (k : String) (v : Payload) :
    dictFind (dictSet d k v) k = some v := by
  unfold dictSet dictFind
  split
  · next hany => rw [find?_map_replace_self d k v hany]; rfl
  · next hany =>
    rw [List.find?_append]
    have hnone : d.find? (fun e => e.1 = k) = none := by
      rw [List.find?_eq_none]
      intro x hx
      simp only [decide_eq_true_eq]
      intro hxk
      exact hany (List.any_eq_true.mpr ⟨x, hx, by simp [hxk]⟩)
    rw [hnone]
    simp

theorem dictSet_find_other (d : List (String × Payload)) (k : String) (v : Payload)
    (k' : String) (h : k' ≠ k) :
    dictFind (dictSet d k v) k' = dictFind d k' := by
  unfold dictSet dictFind
  split
  · rw [find?_map_replace_other d k v k' h]
  · rw [List.find?_append]
    have hnone : List.find? (fun e => e.1 = k') [(k, v)] = none := by
      rw [List.find?_eq_none]
      intro x hx
      simp only [List.mem_singleton] at hx
      subst hx
      simp only [decide_eq_true_eq]
      exact fun hc => h hc.symm
    rw [hnone]
    simp

/-- Equal lookups give equal histogram counts. -/
theorem dictGetInt_congr {d1 d2 : List (String × Payload)} {k : String}
    (h : dictFind d1 k = dictFind d2 k) : dictGetInt d1 k = dictGetInt d2 k := by
  unfold dictFind at h
  unfold dictGetInt
  rcases h1 : d1.find? (fun e => e.1 = k) with _ | ⟨k1, v1⟩ <;>
    rcases h2 : d2.find? (fun e => e.1 = k) with _ | ⟨k2, v2⟩
  · rw [h1, h2]
  · rw [h1, h2] at h
    simp at h
  · rw [h1, h2] at h
    simp at h
  · rw [h1, h2] at h ⊢
    simp at h
    rw [h]
    cases v2 <;> rfl

/-- Characterization of the type-histogram loop: the count at `name`
after processing `items` adds the number of matching elements to the
accumulator's count, and the key is present iff it was present before or
some element matches. -/
theorem hist_loop (items : List Payload) (name : String) :
    ∀ acc : List (String × Payload),
      (dictFind acc name = none ∨ dictFind acc name = some (.int (dictGetInt acc name))) →
      dictFind (items.foldl (fun acc it =>
          dictSet acc (pyTypeName it) (.int (dictGetInt acc (pyTypeName it) + 1))) acc)
        name =
      (if dictFind acc name = none ∧
          items.countP (fun it => pyTypeName it = name) = 0
       then none
       else some (.int (dictGetInt acc name +
         items.countP (fun it => pyTypeName it = name)))) := by
  induction items with
  | nil =>
    intro acc hinv
    simp only [List.foldl_nil, List.countP_nil]
    rcases hinv with h | h
    · simp [h]
    · rw [if_neg (by simp [h])]
      rw [h]
      simp
  | cons it rest ih =>
    intro acc hinv
    simp only [List.foldl_cons]
    by_cases hname : pyTypeName it = name
    · -- the head bumps the tracked key
      subst hname
      have hstep1 : dictFind (dictSet acc (pyTypeName it)
          (.int (dictGetInt acc (pyTypeName it) + 1))) (pyTypeName it) =
          some (.int (dictGetInt acc (pyTypeName it) + 1)) :=
        dictSet_find_self _ _ _
      have hstep2 : dictGetInt (dictSet acc (pyTypeName it)
          (.int (dictGetInt acc (pyTypeName it) + 1))) (pyTypeName it) =
          dictGetInt acc (pyTypeName it) + 1 :=
        dictFind_int_getInt hstep1
      rw [ih _ (Or.inr (by rw [hstep1, hstep2]))]
      rw [if_neg (by simp [hstep1])]
      rw [hstep2]
      rw [List.countP_cons_of_pos _ _ (by simp)]
      rw [if_neg ?_]
      · congr 2
        omega
      · rintro ⟨-, hcount⟩
        omega
    · -- the head bumps a different key
      have hstep1 : dictFind (dictSet acc (pyTypeName it)
          (.int (dictGetInt acc (pyTypeName it) + 1))) name = dictFind acc name :=
        dictSet_find_other _ _ _ _ (fun hc => hname hc.symm)
      have hstep2 : dictGetInt (dictSet acc (pyTypeName it)
          (.int (dictGetInt acc (pyTypeName it) + 1))) name = dictGetInt acc name :=
        dictGetInt_congr hstep1
      rw [ih _ (by rw [hstep1, hstep2]; exact hinv)]
      rw [hstep1, hstep2, List.countP_cons_of_neg _ _ (by simpa using hname)]

/-- The numeric elements the aggregator extracts, read through their
numeric value, are exactly the spec-side contributions (bools as 0/1). -/
theorem numfilter_eq (l : List Payload) :
    (l.filter isNumInst).map numValQ = l.filterMap numContrib := by
  induction l with
  | nil => rfl
  | cons x rest ih =>
    cases x <;>
      simp_all [isNumInst, numContrib, numValQ, List.filter_cons, List.filterMap_cons]

theorem pyMinNum_val (x : Payload) (xs : List Payload) :
    numValQ (pyMinNum x xs) = (xs.map numValQ).foldl min (numValQ x) := by
  induction xs generalizing x with
  | nil => rfl
  | cons y ys ih =>
    simp only [pyMinNum, List.foldl_cons, List.map_cons] at *
    rw [ih]
    have hstep : numValQ (if numValQ y < numValQ x then y else x) =
        min (numValQ x) (numValQ y) := by
      by_cases h : numValQ y < numValQ x
      · rw [if_pos h, min_eq_right (le_of_lt h)]
      · rw [if_neg h, min_eq_left (le_of_not_lt h)]
    rw [hstep]

theorem pyMaxNum_val (x : Payload) (xs : List Payload) :
    numValQ (pyMaxNum x xs) = (xs.map numValQ).foldl max (numValQ x) := by
  induction xs generalizing x with
  | nil => rfl
  | cons y ys ih =>
    simp only [pyMaxNum, List.foldl_cons, List.map_cons] at *
    rw [ih]
    have hstep : numValQ (if numValQ x < numValQ y then y else x) =
        max (numValQ x) (numValQ y) := by
      by_cases h : numValQ x < numValQ y
      · rw [if_pos h, max_eq_right (le_of_lt h)]
      · rw [if_neg h, max_eq_left (le_of_not_lt h)]
    rw [hstep]

theorem sum_int_eq (xs : List Payload) (h : xs.any isFloatP = false) :
    (((xs.map numValI).sum : Int) : ℚ) = (xs.map numValQ).sum := by
  induction xs with
  | nil => simp
  | cons x rest ih =>
    rw [List.any_cons, Bool.or_eq_false_iff] at h
    simp only [List.map_cons, List.sum_cons, Int.cast_add]
    rw [ih h.2]
    congr 1
    cases x <;> simp_all [numValI, numValQ, isFloatP]

theorem pySumNum_val (xs : List Payload) : numValQ (pySumNum xs) = (xs.map numValQ).sum := by
  unfold pySumNum
  split
  · rfl
  · next hnofloat =>
    simp only [numValQ]
    exact sum_int_eq xs (by simpa using hnofloat)

/-- **C10**: in `aggregate`, boolean elements are treated as numeric —
they contribute as 0/1 to min, max, avg and sum of `numeric_stats` —
while the type histogram counts them under the name `bool`, not `int`. -/
theorem C10_aggregate_bools_numeric (l : List Payload) (hb : l.any isBoolP = true) :
    ∃ td ns : List (String × Payload),
      pdictFind (_aggregate_data (.list l)) "types" = some (.dict td) ∧
      pdictFind (_aggregate_data (.list l)) "numeric_stats" = some (.dict ns) ∧
      dictFind td "bool" = some (.int (l.countP isBoolP)) ∧
      (l.countP isIntP ≠ 0 → dictFind td "int" = some (.int (l.countP isIntP))) ∧
      (l.countP isIntP = 0 → dictFind td "int" = none) ∧
      ∃ mn mx sm : Payload,
        dictFind ns "min" = some mn ∧ dictFind ns "max" = some mx ∧
        dictFind ns "sum" = some sm ∧
        dictFind ns "avg" = some (.float ((l.filterMap numContrib).sum /
          ((l.filterMap numContrib).length : ℚ))) ∧
        numValQ mn = qListMin (l.filterMap numContrib) ∧
        numValQ mx = qListMax (l.filterMap numContrib) ∧
        numValQ sm = (l.filterMap numContrib).sum := by
  obtain ⟨xb, hxb, hxbool⟩ := List.any_eq_true.mp hb
  have hxnum : isNumInst xb = true := by
    cases xb <;> simp_all [isBoolP, isNumInst]
  have hne : l.filter isNumInst ≠ [] := by
    intro h0
    have : xb ∈ l.filter isNumInst := List.mem_filter.mpr ⟨hxb, hxnum⟩
    rw [h0] at this
    cases this
  obtain ⟨x, xs, hmatch⟩ := List.exists_cons_of_ne_nil hne
  refine ⟨typesHist l,
    [("min", pyMinNum x xs), ("max", pyMaxNum x xs),
     ("avg", .float (((x :: xs).map numValQ).sum / (((x :: xs).length : ℚ)))),
     ("sum", pySumNum (x :: xs))], ?_, ?_, ?_, ?_, ?_, ?_⟩
  · simp only [_aggregate_data, hmatch]
    rfl
  · simp only [_aggregate_data, hmatch]
    rfl
  · have := hist_loop l "bool" [] (Or.inl rfl)
    unfold typesHist
    rw [this]
    have hcount : l.countP (fun it => pyTypeName it = "bool") = l.countP isBoolP :=
      List.countP_congr fun a _ => by cases a <;> simp [pyTypeName, isBoolP]
    have hpos : 0 < l.countP isBoolP :=
      List.countP_pos_iff.mpr ⟨xb, hxb, hxbool⟩
    rw [if_neg (by rw [hcount]; omega)]
    rw [hcount]
    simp [dictFind, dictGetInt]
  · intro hcnt
    have := hist_loop l "int" [] (Or.inl rfl)
    unfold typesHist
    rw [this]
    have hcount : l.countP (fun it => pyTypeName it = "int") = l.countP isIntP :=
      List.countP_congr fun a _ => by cases a <;> simp [pyTypeName, isIntP]
    rw [if_neg (by rw [hcount]; omega)]
    rw [hcount]
    simp [dictFind, dictGetInt]
  · intro hcnt
    have := hist_loop l "int" [] (Or.inl rfl)
    unfold typesHist
    rw [this]
    have hcount : l.countP (fun it => pyTypeName it = "int") = l.countP isIntP :=
      List.countP_congr fun a _ => by cases a <;> simp [pyTypeName, isIntP]
    rw [if_pos (by rw [hcount]; exact ⟨rfl, hcnt⟩)]
  · refine ⟨pyMinNum x xs, pyMaxNum x xs, pySumNum (x :: xs), ?_, ?_, ?_, ?_, ?_, ?_, ?_⟩
    · rfl
    · rfl
    · rfl
    · have hq : (x :: xs).map numValQ = l.filterMap numContrib := by
        rw [← hmatch, numfilter_eq]
      have hlen : ((x :: xs).length : ℚ) = ((l.filterMap numContrib).length : ℚ) := by
        rw [← hq, List.length_map]
      show some (Payload.float (((x :: xs).map numValQ).sum / (((x :: xs).length : ℚ)))) =
        some (Payload.float ((l.filterMap numContrib).sum /
          ((l.filterMap numContrib).length : ℚ)))
      rw [hq, hlen]
    · rw [pyMinNum_val]
      have hq : (x :: xs).map numValQ = l.filterMap numContrib := by
        rw [← hmatch, numfilter_eq]
      rw [← hq]
      simp [qListMin]
    · rw [pyMaxNum_val]
      have hq : (x :: xs).map numValQ = l.filterMap numContrib := by
        rw [← hmatch, numfilter_eq]
      rw [← hq]
      simp [qListMax]
    · rw [pySumNum_val]
      have hq : (x :: xs).map numValQ = l.filterMap numContrib := by
        rw [← hmatch, numfilter_eq]
      rw [hq]

/-- Witness for C10 at `[True, 3, "x"]`. -/
theorem C10_witness :
    ([Payload.bool true, Payload.int 3, Payload.str "x"].any isBoolP = true) ∧
    (∃ td ns : List (String × Payload),
      pdictFind (_aggregate_data (.list [.bool true, .int 3, .str "x"])) "types" =
        some (.dict td) ∧
      pdictFind (_aggregate_data (.list [.bool true, .int 3, .str "x"])) "numeric_stats" =
        some (.dict ns) ∧
      dictFind td "bool" =
        some (.int ([Payload.bool true, Payload.int 3, Payload.str "x"].countP isBoolP)) ∧
      ([Payload.bool true, Payload.int 3, Payload.str "x"].countP isIntP ≠ 0 →
        dictFind td "int" =
          some (.int ([Payload.bool true, Payload.int 3, Payload.str "x"].countP isIntP))) ∧
      ([Payload.bool true, Payload.int 3, Payload.str "x"].countP isIntP = 0 →
        dictFind td "int" = none) ∧
      ∃ mn mx sm : Payload,
        dictFind ns "min" = some mn ∧ dictFind ns "max" = some mx ∧
        dictFind ns "sum" = some sm ∧
        dictFind ns "avg" = some (.float
          (([Payload.bool true, Payload.int 3, Payload.str "x"].filterMap numContrib).sum /
          ((([Payload.bool true, Payload.int 3, Payload.str "x"].filterMap
            numContrib).length : ℚ))) ) ∧
        numValQ mn = qListMin
          ([Payload.bool true, Payload.int 3, Payload.str "x"].filterMap numContrib) ∧
        numValQ mx = qListMax
          ([Payload.bool true, Payload.int 3, Payload.str "x"].filterMap numContrib) ∧
        numValQ sm =
          ([Payload.bool true, Payload.int 3, Payload.str "x"].filterMap numContrib).sum) :=
  ⟨by decide,
   C10_aggregate_bools_numeric [.bool true, .int 3, .str "x"] (by decide)⟩

end Legacy
